import Mathlib

/-!
Verification development for the misconfig ConfigFileFormatConverter
(src/main.py).

The program is a single-shot CLI that loads a configuration file in one of
three formats (yaml, json, toml) into a generic value tree and re-serializes
it in a target format.  `load_file`, `write_file` and `main` below are
shallow embeddings of the functions of the same names in src/main.py,
with the filesystem passed explicitly and the process exit code, the log
lines and the written output content returned as data.

The PyYAML, json and toml libraries are not part of the repository; their
parse/serialize behaviour is modelled from the specification as concrete,
executable printer/parser pairs over `List Char` (see `yamlLoad`, `jsonLoad`,
`tomlLoad`, `yamlDumpDoc`, `jsonDumpDoc`, `tomlDumpDoc`).
-/

namespace ConfigConvert

/-! ### Decimal digits: printing and parsing of natural numbers -/

/-- The decimal digit character for a digit value below ten. -/
def digitChar : Nat → Char
  | 0 => '0'
  | 1 => '1'
  | 2 => '2'
  | 3 => '3'
  | 4 => '4'
  | 5 => '5'
  | 6 => '6'
  | 7 => '7'
  | 8 => '8'
  | _ => '9'

/-- The digit value of a decimal digit character, `none` for non-digits. -/
def charDigit? : Char → Option Nat
  | '0' => .some 0
  | '1' => .some 1
  | '2' => .some 2
  | '3' => .some 3
  | '4' => .some 4
  | '5' => .some 5
  | '6' => .some 6
  | '7' => .some 7
  | '8' => .some 8
  | '9' => .some 9
  | _ => .none

theorem charDigit?_digitChar {d : Nat} (hd : d < 10) :
    charDigit? (digitChar d) = some d := by
  interval_cases d <;> rfl

/-- Little-endian decimal digits of `n`, with `fuel ≥ n` supplying
structural termination. -/
def natDigitsRev : Nat → Nat → List Nat
  | 0, _ => []
  | _ + 1, 0 => []
  | fuel + 1, n + 1 => ((n + 1) % 10) :: natDigitsRev fuel ((n + 1) / 10)

/-- The value of a little-endian decimal digit list. -/
def valLE : List Nat → Nat
  | [] => 0
  | d :: ds => d + 10 * valLE ds

theorem valLE_natDigitsRev : ∀ fuel n, n ≤ fuel →
    valLE (natDigitsRev fuel n) = n := by
  intro fuel
  induction fuel with
  | zero => intro n hn; interval_cases n; rfl
  | succ f ih =>
    intro n hn
    cases n with
    | zero => rfl
    | succ m =>
      have hdiv : (m + 1) / 10 < m + 1 := Nat.div_lt_self (Nat.succ_pos m) (by norm_num)
      have hle : (m + 1) / 10 ≤ f := by omega
      simp only [natDigitsRev, valLE, ih _ hle]
      omega

theorem natDigitsRev_lt : ∀ fuel n, ∀ d ∈ natDigitsRev fuel n, d < 10 := by
  intro fuel
  induction fuel with
  | zero => intro n d hd; simp [natDigitsRev] at hd
  | succ f ih =>
    intro n d hd
    cases n with
    | zero => simp [natDigitsRev] at hd
    | succ m =>
      simp only [natDigitsRev, List.mem_cons] at hd
      rcases hd with h | h
      · omega
      · exact ih _ _ h

/-- Decimal rendering of a natural number (most significant digit first). -/
def printNat (n : Nat) : List Char :=
  if n = 0 then ['0'] else ((natDigitsRev n n).map digitChar).reverse

/-- Accumulating decimal parser; fails on any non-digit character. -/
def parseNatAux : List Char → Nat → Option Nat
  | [], acc => some acc
  | c :: cs, acc =>
    match charDigit? c with
    | some d => parseNatAux cs (10 * acc + d)
    | none => none

/-- Decimal parser: nonempty all-digit strings only. -/
def parseNat (s : List Char) : Option Nat :=
  if s = [] then none else parseNatAux s 0

theorem parseNatAux_map_digitChar :
    ∀ (ds : List Nat) (acc : Nat), (∀ d ∈ ds, d < 10) →
      parseNatAux (ds.map digitChar) acc =
        some (ds.foldl (fun a d => 10 * a + d) acc) := by
  intro ds
  induction ds with
  | nil => intro acc _; rfl
  | cons d ds ih =>
    intro acc hb
    have hd : d < 10 := hb d (List.mem_cons_self d ds)
    simp only [List.map_cons, parseNatAux, charDigit?_digitChar hd, List.foldl_cons]
    exact ih _ (fun x hx => hb x (List.mem_cons_of_mem d hx))

theorem foldl_reverse_valLE :
    ∀ (L : List Nat) (acc : Nat),
      L.reverse.foldl (fun a d => 10 * a + d) acc =
        acc * 10 ^ L.length + valLE L := by
  intro L
  induction L with
  | nil => intro acc; simp [valLE]
  | cons d L ih =>
    intro acc
    simp only [List.reverse_cons, List.foldl_append, ih, List.foldl_cons,
      List.foldl_nil, valLE, List.length_cons]
    ring

theorem printNat_ne_nil (n : Nat) : printNat n ≠ [] := by
  unfold printNat
  by_cases h : n = 0
  · simp [h]
  · obtain ⟨m, rfl⟩ : ∃ m, n = m + 1 := ⟨n - 1, by omega⟩
    simp [natDigitsRev]

theorem parseNat_printNat (n : Nat) : parseNat (printNat n) = some n := by
  by_cases h : n = 0
  · subst h; rfl
  · obtain ⟨m, rfl⟩ : ∃ m, n = m + 1 := ⟨n - 1, by omega⟩
    have hne := printNat_ne_nil (m + 1)
    unfold parseNat
    rw [if_neg hne]
    unfold printNat
    rw [if_neg h]
    rw [← List.map_reverse]
    rw [parseNatAux_map_digitChar _ 0
      (fun d hd => natDigitsRev_lt _ _ d (List.mem_reverse.mp hd))]
    rw [foldl_reverse_valLE, valLE_natDigitsRev (m + 1) (m + 1) le_rfl]
    simp

/-- Whether a character is a decimal digit of our grammar. -/
def isDigitCh (c : Char) : Bool := (charDigit? c).isSome

theorem printNat_chars (n : Nat) : ∀ c ∈ printNat n, isDigitCh c = true := by
  intro c hc
  unfold printNat at hc
  by_cases h : n = 0
  · simp [h] at hc
    subst hc; rfl
  · rw [if_neg h, List.mem_reverse, List.mem_map] at hc
    obtain ⟨d, hd, rfl⟩ := hc
    have : d < 10 := natDigitsRev_lt _ _ d hd
    unfold isDigitCh
    rw [charDigit?_digitChar this]
    rfl

/-! ### Integers -/

/-- Decimal rendering of an integer. -/
def printInt (i : Int) : List Char :=
  if i < 0 then '-' :: printNat i.natAbs else printNat i.toNat

/-- Integer parser: optional leading minus sign, then a nonempty digit
string. -/
def parseInt : List Char → Option Int
  | [] => none
  | c :: cs =>
    if c = '-' then (parseNat cs).map (fun m : Nat => -(m : Int))
    else (parseNat (c :: cs)).map (fun m : Nat => (m : Int))

/-- Characters that may occur in an integer token. -/
def isIntCh (c : Char) : Bool := isDigitCh c || c = '-'

theorem isDigitCh_ne_minus {c : Char} (h : isDigitCh c = true) : c ≠ '-' := by
  intro he
  subst he
  simp [isDigitCh, charDigit?] at h

theorem parseInt_printInt (i : Int) : parseInt (printInt i) = some i := by
  unfold printInt
  by_cases h : i < 0
  · rw [if_pos h]
    simp only [parseInt, parseNat_printNat, Option.map_some', reduceIte,
      Option.some.injEq]
    omega
  · rw [if_neg h]
    obtain ⟨c, cs, hcs⟩ : ∃ c cs, printNat i.toNat = c :: cs := by
      cases hp : printNat i.toNat with
      | nil => exact absurd hp (printNat_ne_nil _)
      | cons c cs => exact ⟨c, cs, rfl⟩
    rw [hcs]
    have hcdig : isDigitCh c = true := by
      apply printNat_chars
      rw [hcs]; exact List.mem_cons_self c cs
    simp only [parseInt, if_neg (isDigitCh_ne_minus hcdig), ← hcs, parseNat_printNat,
      Option.map_some', Option.some.injEq]
    show (i.toNat : Int) = i
    omega

theorem parseNatAux_chars :
    ∀ (s : List Char) (acc n : Nat), parseNatAux s acc = some n →
      ∀ c ∈ s, isDigitCh c = true := by
  intro s
  induction s with
  | nil => intro acc n _ c hc; simp at hc
  | cons x xs ih =>
    intro acc n hp c hc
    simp only [parseNatAux] at hp
    cases hx : charDigit? x with
    | none => rw [hx] at hp; exact absurd hp (by simp)
    | some d =>
      rw [hx] at hp
      rcases List.mem_cons.mp hc with rfl | hmem
      · simp [isDigitCh, hx]
      · exact ih _ _ hp c hmem

theorem parseInt_chars {s : List Char} {i : Int} (h : parseInt s = some i) :
    ∀ c ∈ s, isIntCh c = true := by
  intro c hc
  cases s with
  | nil => simp at hc
  | cons x xs =>
    simp only [parseInt] at h
    by_cases hx : x = '-'
    · rw [if_pos hx] at h
      rcases List.mem_cons.mp hc with rfl | hmem
      · simp [isIntCh, hx]
      · cases hp : parseNat xs with
        | none => rw [hp] at h; exact absurd h (by simp)
        | some m =>
          unfold parseNat at hp
          by_cases hn : xs = []
          · rw [if_pos hn] at hp; exact absurd hp (by simp)
          · rw [if_neg hn] at hp
            have := parseNatAux_chars xs 0 m hp c hmem
            simp [isIntCh, this]
    · rw [if_neg hx] at h
      cases hp : parseNat (x :: xs) with
      | none => rw [hp] at h; exact absurd h (by simp)
      | some m =>
        unfold parseNat at hp
        rw [if_neg (by simp)] at hp
        have := parseNatAux_chars _ 0 m hp c hc
        simp [isIntCh, this]

/-! ### List-of-char utilities: joining/splitting on a separator -/

/-- Join parts with a single separator character between them. -/
def joinChar (sep : Char) : List (List Char) → List Char
  | [] => []
  | [t] => t
  | t :: ts => t ++ sep :: joinChar sep ts

/-- Split on a separator character; always returns a nonempty part list. -/
def splitChar (sep : Char) : List Char → List (List Char)
  | [] => [[]]
  | x :: xs =>
    if x = sep then [] :: splitChar sep xs
    else
      match splitChar sep xs with
      | t :: ts => (x :: t) :: ts
      | [] => [[x]]

theorem splitChar_ne_nil (sep : Char) : ∀ s, splitChar sep s ≠ [] := by
  intro s
  induction s with
  | nil => simp [splitChar]
  | cons x xs ih =>
    simp only [splitChar]
    by_cases hx : x = sep
    · simp [hx]
    · rw [if_neg hx]
      cases h : splitChar sep xs with
      | nil => simp
      | cons t ts => simp

theorem splitChar_no_sep {sep : Char} :
    ∀ {s : List Char}, sep ∉ s → splitChar sep s = [s] := by
  intro s
  induction s with
  | nil => intro _; rfl
  | cons x xs ih =>
    intro hns
    have hx : x ≠ sep := fun h => hns (h ▸ List.mem_cons_self x xs)
    have hxs : sep ∉ xs := fun h => hns (List.mem_cons_of_mem x h)
    simp only [splitChar, if_neg hx, ih hxs]

theorem splitChar_append_sep {sep : Char} :
    ∀ {p : List Char} (r : List Char), sep ∉ p →
      splitChar sep (p ++ sep :: r) = p :: splitChar sep r := by
  intro p
  induction p with
  | nil => intro r _; simp [splitChar]
  | cons x p ih =>
    intro r hns
    have hx : x ≠ sep := fun h => hns (h ▸ List.mem_cons_self x p)
    have hp : sep ∉ p := fun h => hns (List.mem_cons_of_mem x h)
    simp only [List.cons_append, splitChar, if_neg hx]
    rw [show p.append (sep :: r) = p ++ sep :: r from rfl, ih r hp]

theorem splitChar_joinChar {sep : Char} :
    ∀ {ps : List (List Char)}, ps ≠ [] → (∀ p ∈ ps, sep ∉ p) →
      splitChar sep (joinChar sep ps) = ps := by
  intro ps
  induction ps with
  | nil => intro h _; exact absurd rfl h
  | cons p ps ih =>
    intro _ hall
    cases ps with
    | nil => exact splitChar_no_sep (hall p (List.mem_cons_self p []))
    | cons q qs =>
      show splitChar sep (p ++ sep :: joinChar sep (q :: qs)) = _
      rw [splitChar_append_sep _ (hall p (List.mem_cons_self p _))]
      rw [ih (by simp) (fun r hr => hall r (List.mem_cons_of_mem p hr))]

theorem mem_joinChar {sep : Char} :
    ∀ {ps : List (List Char)} {c : Char}, c ∈ joinChar sep ps →
      c = sep ∨ ∃ p ∈ ps, c ∈ p := by
  intro ps
  induction ps with
  | nil => intro c hc; simp [joinChar] at hc
  | cons p ps ih =>
    intro c hc
    cases ps with
    | nil =>
      exact Or.inr ⟨p, List.mem_cons_self p [], hc⟩
    | cons q qs =>
      rw [show joinChar sep (p :: q :: qs) = p ++ sep :: joinChar sep (q :: qs) from rfl,
        List.mem_append] at hc
      rcases hc with h | h
      · exact Or.inr ⟨p, List.mem_cons_self p _, h⟩
      · rcases List.mem_cons.mp h with rfl | h
        · exact Or.inl rfl
        · rcases ih h with h | ⟨r, hr, hcr⟩
          · exact Or.inl h
          · exact Or.inr ⟨r, List.mem_cons_of_mem p hr, hcr⟩

theorem mem_of_mem_splitChar {sep : Char} :
    ∀ {s : List Char} {p : List Char} {c : Char},
      p ∈ splitChar sep s → c ∈ p → c ∈ s := by
  intro s
  induction s with
  | nil =>
    intro p c hp hc
    simp [splitChar] at hp
    subst hp
    simp at hc
  | cons x xs ih =>
    intro p c hp hc
    simp only [splitChar] at hp
    by_cases hx : x = sep
    · rw [if_pos hx] at hp
      rcases List.mem_cons.mp hp with rfl | hp
      · simp at hc
      · exact List.mem_cons_of_mem x (ih hp hc)
    · rw [if_neg hx] at hp
      cases hsp : splitChar sep xs with
      | nil => exact absurd hsp (splitChar_ne_nil sep xs)
      | cons t ts =>
        rw [hsp] at hp
        rcases List.mem_cons.mp hp with rfl | hp
        · rcases List.mem_cons.mp hc with rfl | hc
          · exact List.mem_cons_self _ _
          · exact List.mem_cons_of_mem x (ih (hsp ▸ List.mem_cons_self t ts) hc)
        · exact List.mem_cons_of_mem x (ih (hsp ▸ List.mem_cons_of_mem t hp) hc)

/-! ### Trailing-comma marking (JSON object entries) -/

/-- Append a comma to every line except the last. -/
def commaMark : List (List Char) → List (List Char)
  | [] => []
  | [l] => [l]
  | l :: ls => (l ++ [',']) :: commaMark ls

/-- Strip a required trailing comma. -/
def stripComma (l : List Char) : Option (List Char) :=
  if l.getLast? = some ',' then some l.dropLast else none

/-- Undo `commaMark`: every line but the last must end in a comma. -/
def uncomma : List (List Char) → Option (List (List Char))
  | [] => some []
  | [l] => some [l]
  | l :: ls =>
    match stripComma l, uncomma ls with
    | some l', some ls' => some (l' :: ls')
    | _, _ => none

theorem stripComma_concat (l : List Char) : stripComma (l ++ [',']) = some l := by
  simp [stripComma]

theorem uncomma_commaMark : ∀ ls : List (List Char), uncomma (commaMark ls) = some ls := by
  intro ls
  induction ls with
  | nil => rfl
  | cons l ls ih =>
    cases ls with
    | nil => rfl
    | cons m ms =>
      show uncomma ((l ++ [',']) :: commaMark (m :: ms)) = _
      have hx : commaMark (m :: ms) ≠ [] := by
        cases ms <;> simp [commaMark]
      obtain ⟨a, as, ha⟩ : ∃ a as, commaMark (m :: ms) = a :: as := by
        cases h : commaMark (m :: ms) with
        | nil => exact absurd h hx
        | cons a as => exact ⟨a, as, rfl⟩
      rw [ha]
      show (match stripComma (l ++ [',']), uncomma (a :: as) with
        | some l', some ls' => some (l' :: ls') | _, _ => none) = _
      rw [stripComma_concat, ← ha, ih]

/-! ### takeWhile/dropWhile over an appended prefix -/

theorem takeWhile_append_all {p : Char → Bool} :
    ∀ {k : List Char} (r : List Char), (∀ c ∈ k, p c = true) →
      (k ++ r).takeWhile p = k ++ r.takeWhile p := by
  intro k
  induction k with
  | nil => intro r _; rfl
  | cons x xs ih =>
    intro r hall
    have hx : p x = true := hall x (List.mem_cons_self x xs)
    simp only [List.cons_append, List.takeWhile_cons, hx, if_true]
    rw [ih r (fun c hc => hall c (List.mem_cons_of_mem x hc))]

theorem dropWhile_append_all {p : Char → Bool} :
    ∀ {k : List Char} (r : List Char), (∀ c ∈ k, p c = true) →
      (k ++ r).dropWhile p = r.dropWhile p := by
  intro k
  induction k with
  | nil => intro r _; rfl
  | cons x xs ih =>
    intro r hall
    have hx : p x = true := hall x (List.mem_cons_self x xs)
    simp only [List.cons_append, List.dropWhile_cons, hx, if_true]
    exact ih r (fun c hc => hall c (List.mem_cons_of_mem x hc))

theorem takeWhile_cons_neg {p : Char → Bool} {c : Char} (r : List Char)
    (hc : p c = false) : (c :: r).takeWhile p = [] := by
  simp [List.takeWhile_cons, hc]

theorem dropWhile_cons_neg {p : Char → Bool} {c : Char} (r : List Char)
    (hc : p c = false) : (c :: r).dropWhile p = c :: r := by
  simp [List.dropWhile_cons, hc]

theorem all_takeWhile {p : Char → Bool} :
    ∀ (l : List Char), ∀ c ∈ l.takeWhile p, p c = true := by
  intro l
  induction l with
  | nil => intro c hc; simp at hc
  | cons x xs ih =>
    intro c hc
    rw [List.takeWhile_cons] at hc
    by_cases hx : p x = true
    · rw [if_pos hx] at hc
      rcases List.mem_cons.mp hc with rfl | hc
      · exact hx
      · exact ih c hc
    · rw [if_neg hx] at hc
      simp at hc

/-! ### Option-valued map over a list -/

/-- Map an option-valued function over a list, failing if any element
fails. -/
def mapOpt {α β : Type} (f : α → Option β) : List α → Option (List β)
  | [] => some []
  | a :: as =>
    match f a, mapOpt f as with
    | some b, some bs => some (b :: bs)
    | _, _ => none

theorem mapOpt_map_of_inverse {α β : Type} {f : β → Option α} {g : α → β} :
    ∀ {xs : List α}, (∀ x ∈ xs, f (g x) = some x) → mapOpt f (xs.map g) = some xs := by
  intro xs
  induction xs with
  | nil => intro _; rfl
  | cons x xs ih =>
    intro hall
    simp only [List.map_cons, mapOpt, hall x (List.mem_cons_self x xs),
      ih (fun y hy => hall y (List.mem_cons_of_mem x hy))]

theorem mapOpt_mem_exists {α β : Type} {f : α → Option β} :
    ∀ {as : List α} {bs : List β}, mapOpt f as = some bs →
      ∀ b ∈ bs, ∃ a ∈ as, f a = some b := by
  intro as
  induction as with
  | nil =>
    intro bs h b hb
    simp only [mapOpt, Option.some.injEq] at h
    subst h
    simp at hb
  | cons a as ih =>
    intro bs h b hb
    simp only [mapOpt] at h
    cases hfa : f a with
    | none => rw [hfa] at h; exact absurd h (by simp)
    | some b' =>
      rw [hfa] at h
      cases hrest : mapOpt f as with
      | none => rw [hrest] at h; exact absurd h (by simp)
      | some bs' =>
        rw [hrest] at h
        simp only [Option.some.injEq] at h
        subst h
        rcases List.mem_cons.mp hb with rfl | hb
        · exact ⟨a, List.mem_cons_self a as, hfa⟩
        · obtain ⟨a', ha', hfa'⟩ := ih hrest b hb
          exact ⟨a', List.mem_cons_of_mem a ha', hfa'⟩

theorem mapOpt_elem_some {α β : Type} {f : α → Option β} :
    ∀ {as : List α} {bs : List β}, mapOpt f as = some bs →
      ∀ a ∈ as, ∃ b, f a = some b := by
  intro as
  induction as with
  | nil => intro bs _ a ha; simp at ha
  | cons x xs ih =>
    intro bs h a ha
    simp only [mapOpt] at h
    cases hfx : f x with
    | none => rw [hfx] at h; exact absurd h (by simp)
    | some b' =>
      rw [hfx] at h
      cases hrest : mapOpt f xs with
      | none => rw [hrest] at h; exact absurd h (by simp)
      | some bs' =>
        rcases List.mem_cons.mp ha with rfl | ha
        · exact ⟨b', hfx⟩
        · exact ih hrest a ha

/-! ### The Generic Value tree (spec section 3) -/

/-- The format-agnostic in-memory tree built by the loader and consumed by
the writer: null, booleans, numbers (integers), strings, sequences and
string-keyed mappings. -/
inductive Value where
  | vnull
  | vbool (b : Bool)
  | vint (n : Int)
  | vstr (s : List Char)
  | vseq (items : List Value)
  | vmap (entries : List (List Char × Value))

/-- The yaml/json null token. -/
def nullTok : List Char := ['n', 'u', 'l', 'l']

/-- The true token. -/
def trueTok : List Char := ['t', 'r', 'u', 'e']

/-- The false token. -/
def falseTok : List Char := ['f', 'a', 'l', 's', 'e']

/-- The double-quote character used to delimit strings. -/
def dq : Char := '"'

/-- Opening curly brace. -/
def lbrace : Char := Char.ofNat 123

/-- Closing curly brace. -/
def rbrace : Char := Char.ofNat 125

/-- Characters allowed in a bare mapping key. -/
def isKeyChar (c : Char) : Bool := c.isAlphanum

/-- Characters allowed inside a quoted string of the modelled grammar. -/
def isStrChar (c : Char) : Bool := c.isAlphanum

mutual

/-- Modelled from the spec: the inline rendering of a Generic Value shared
by the serializer models (scalars, flow-style sequences, flow-style
mappings; strings double-quoted without escaping). -/
def printTok : Value → List Char
  | .vnull => nullTok
  | .vbool true => trueTok
  | .vbool false => falseTok
  | .vint n => printInt n
  | .vstr s => dq :: (s ++ [dq])
  | .vseq xs => '[' :: (joinChar ',' (printTokList xs) ++ [']'])
  | .vmap kvs => lbrace :: (joinChar ',' (printTokEntries kvs) ++ [rbrace])

/-- Inline rendering of the elements of a sequence. -/
def printTokList : List Value → List (List Char)
  | [] => []
  | v :: vs => printTok v :: printTokList vs

/-- Inline rendering of the entries of a mapping. -/
def printTokEntries : List (List Char × Value) → List (List Char)
  | [] => []
  | (k, v) :: kvs => (k ++ ':' :: printTok v) :: printTokEntries kvs

end

mutual

/-- Whether a null occurs anywhere in the tree (unrepresentable in TOML). -/
def hasNullVal : Value → Bool
  | .vnull => true
  | .vbool _ => false
  | .vint _ => false
  | .vstr _ => false
  | .vseq xs => hasNullList xs
  | .vmap kvs => hasNullEntries kvs

/-- Whether a null occurs in any element of a list. -/
def hasNullList : List Value → Bool
  | [] => false
  | v :: vs => hasNullVal v || hasNullList vs

/-- Whether a null occurs in any entry value of a mapping. -/
def hasNullEntries : List (List Char × Value) → Bool
  | [] => false
  | (_, v) :: kvs => hasNullVal v || hasNullEntries kvs

end

/-! ### Flat-document shape predicates -/

/-- Scalars of the common grammar; `hn` says whether null is allowed
(yaml/json yes, toml no). -/
def isScalarB (hn : Bool) : Value → Bool
  | .vnull => hn
  | .vbool _ => true
  | .vint _ => true
  | .vstr s => s.all isStrChar
  | .vseq _ => false
  | .vmap _ => false

/-- Values allowed as a mapping entry of a flat document: scalars, flat
sequences of scalars, or the empty mapping. -/
def isEntryValB (hn : Bool) (v : Value) : Bool :=
  isScalarB hn v ||
    (match v with
     | .vseq xs => xs.all (isScalarB hn)
     | .vmap [] => true
     | _ => false)

/-- Bare keys: nonempty, all alphanumeric. -/
def isKeyB (k : List Char) : Bool := !k.isEmpty && k.all isKeyChar

/-- Flat documents: a mapping with bare keys and flat entry values, or a
bare flat value at the top level. -/
def isFlatDocB (hn : Bool) : Value → Bool
  | .vmap kvs => kvs.all (fun kv => isKeyB kv.1 && isEntryValB hn kv.2)
  | v => isEntryValB hn v

/-! ### Scalar and token parsers -/

/-- Parse one scalar token of the modelled grammar. -/
def parseScalar (hn : Bool) (s : List Char) : Option Value :=
  if hn = true ∧ s = nullTok then some .vnull
  else if s = trueTok then some (.vbool true)
  else if s = falseTok then some (.vbool false)
  else if s.head? = some dq then
    if s.tail.getLast? = some dq ∧ s.tail.dropLast.all isStrChar then
      some (.vstr s.tail.dropLast)
    else none
  else (parseInt s).map .vint

/-- Parse one inline value token: a scalar, a flow-style sequence of
scalars, or the empty mapping. -/
def parseTok (hn : Bool) (s : List Char) : Option Value :=
  match s with
  | [] => none
  | c :: t =>
    if c = '[' then
      if t.getLast? = some ']' then
        if t.dropLast = [] then some (.vseq [])
        else
          match mapOpt (parseScalar hn) (splitChar ',' t.dropLast) with
          | some vs => some (.vseq vs)
          | none => none
      else none
    else if c = lbrace then
      if t = [rbrace] then some (.vmap []) else none
    else parseScalar hn (c :: t)

/-- Parse one `key: value` line of the modelled yaml grammar. -/
def parseEntryYaml (line : List Char) : Option (List Char × Value) :=
  let k := line.takeWhile isKeyChar
  if k = [] then none
  else
    match line.dropWhile isKeyChar with
    | ':' :: ' ' :: tok => (parseTok true tok).map (fun v => (k, v))
    | _ => none

/-- Parse one `key = value` line of the modelled toml grammar. -/
def parseEntryToml (line : List Char) : Option (List Char × Value) :=
  let k := line.takeWhile isKeyChar
  if k = [] then none
  else
    match line.dropWhile isKeyChar with
    | ' ' :: '=' :: ' ' :: tok => (parseTok false tok).map (fun v => (k, v))
    | _ => none

/-- Parse one indented `"key": value` line of the modelled json grammar. -/
def parseEntryJson (line : List Char) : Option (List Char × Value) :=
  match line with
  | ' ' :: ' ' :: c :: rest =>
    if c = dq then
      if rest.takeWhile isKeyChar = [] then none
      else
        match rest.dropWhile isKeyChar with
        | c2 :: ':' :: ' ' :: tok =>
          if c2 = dq then
            (parseTok true tok).map (fun v => (rest.takeWhile isKeyChar, v))
          else none
        | _ => none
    else none
  | _ => none

/-! ### Document-level serializers (modelled libraries) -/

/-- Modelled from the spec: `yaml.dump` — a nonempty mapping becomes
block-style `key: value` lines, any other value a single inline line. -/
def yamlDumpDoc : Value → List Char
  | .vmap (kv :: kvs) =>
    joinChar '\n' ((kv :: kvs).map (fun kv => kv.1 ++ ':' :: ' ' :: printTok kv.2))
  | v => printTok v

/-- One entry line of the modelled json object layout (2-space indent). -/
def jsonEntryLine (kv : List Char × Value) : List Char :=
  ' ' :: ' ' :: dq :: (kv.1 ++ dq :: ':' :: ' ' :: printTok kv.2)

/-- Modelled from the spec: `json.dump` with indent 2 — a mapping becomes
an object with one entry per line between brace lines, any other value a
single inline line. -/
def jsonDumpDoc : Value → List Char
  | .vmap kvs =>
    joinChar '\n' ([lbrace] :: (commaMark (kvs.map jsonEntryLine) ++ [[rbrace]]))
  | v => printTok v

/-- Modelled from the spec: `toml.dump` — requires a table root, cannot
represent null anywhere, and emits one `key = value` line per entry;
anything else raises TomlEncodeError. -/
def tomlDumpDoc : Value → Except Unit (List Char)
  | .vmap kvs =>
    if hasNullVal (.vmap kvs) then .error ()
    else .ok (joinChar '\n' (kvs.map (fun kv => kv.1 ++ ' ' :: '=' :: ' ' :: printTok kv.2)))
  | _ => .error ()

/-! ### Document-level parsers (modelled libraries) -/

/-- Line-level yaml document parser: a single line is an inline value or a
one-entry mapping, several lines are a mapping. -/
def yamlLoadLines : List (List Char) → Except Unit Value
  | [] => .error ()
  | [l] =>
    match parseTok true l with
    | some v => .ok v
    | none =>
      match parseEntryYaml l with
      | some kv => .ok (.vmap [kv])
      | none => .error ()
  | l1 :: l2 :: ls =>
    match mapOpt parseEntryYaml (l1 :: l2 :: ls) with
    | some kvs => .ok (.vmap kvs)
    | none => .error ()

/-- Modelled from the spec: `yaml.load` with SafeLoader — empty input is
null, otherwise the newline-split lines are parsed as a document. -/
def yamlLoad (content : List Char) : Except Unit Value :=
  if content = [] then .ok .vnull
  else yamlLoadLines (splitChar '\n' content)

/-- Line-level json document parser: a single line is an inline value,
several lines must be a brace-delimited object with comma-separated
entries. -/
def jsonLoadLines : List (List Char) → Except Unit Value
  | [] => .error ()
  | [l] =>
    match parseTok true l with
    | some v => .ok v
    | none => .error ()
  | l1 :: l2 :: ls =>
    if l1 = [lbrace] ∧ (l2 :: ls).getLast? = some [rbrace] then
      match uncomma (l2 :: ls).dropLast with
      | some mids =>
        match mapOpt parseEntryJson mids with
        | some kvs => .ok (.vmap kvs)
        | none => .error ()
      | none => .error ()
    else .error ()

/-- Modelled from the spec: `json.load` — the newline-split lines are
parsed as a document (empty input is a parse error). -/
def jsonLoad (content : List Char) : Except Unit Value :=
  jsonLoadLines (splitChar '\n' content)

/-- Modelled from the spec: `toml.load` — empty input is the empty table,
otherwise every line must be a `key = value` entry. -/
def tomlLoad (content : List Char) : Except Unit Value :=
  if content = [] then .ok (.vmap [])
  else
    match mapOpt parseEntryToml (splitChar '\n' content) with
    | some kvs => .ok (.vmap kvs)
    | none => .error ()

/-! ### Character classes of printed tokens -/

/-- Characters that can occur in a printed scalar token. -/
def scalarChar (c : Char) : Bool := c.isAlphanum || c = '-' || c = dq

theorem ne_of_mem_notMem {s t : List Char} {c : Char} (hc : c ∈ s) (hct : c ∉ t) :
    s ≠ t := fun h => hct (h ▸ hc)

theorem ne_of_all_mem_not {s t : List Char} {p : Char → Bool}
    (hall : ∀ c ∈ s, p c = true) {c : Char} (hct : c ∈ t) (hcf : p c = false) :
    s ≠ t := by
  intro he
  subst he
  rw [hall c hct] at hcf
  cases hcf

theorem isDigitCh_alphanum {c : Char} (h : isDigitCh c = true) :
    c.isAlphanum = true := by
  unfold isDigitCh charDigit? at h
  split at h
  all_goals simp_all

theorem printInt_ne_nil (i : Int) : printInt i ≠ [] := by
  unfold printInt
  by_cases h : i < 0
  · simp [h]
  · rw [if_neg h]; exact printNat_ne_nil _

theorem printInt_chars (i : Int) : ∀ c ∈ printInt i, isIntCh c = true := by
  intro c hc
  unfold printInt at hc
  by_cases h : i < 0
  · rw [if_pos h] at hc
    rcases List.mem_cons.mp hc with rfl | hc
    · decide
    · simp [isIntCh, printNat_chars _ c hc]
  · rw [if_neg h] at hc
    simp [isIntCh, printNat_chars _ c hc]

theorem isIntCh_scalarChar {c : Char} (h : isIntCh c = true) :
    scalarChar c = true := by
  unfold isIntCh at h
  rcases Bool.or_eq_true_iff.mp h with h | h
  · simp [scalarChar, isDigitCh_alphanum h]
  · simp only [decide_eq_true_eq] at h
    subst h
    decide

theorem isStrChar_scalarChar {c : Char} (h : isStrChar c = true) :
    scalarChar c = true := by
  simp [scalarChar, isStrChar] at h ⊢
  tauto

theorem scalarChar_facts {c : Char} (h : scalarChar c = true) :
    c ≠ '[' ∧ c ≠ lbrace ∧ c ≠ ',' ∧ c ≠ '\n' ∧ c ≠ ':' ∧ c ≠ '=' := by
  refine ⟨?_, ?_, ?_, ?_, ?_, ?_⟩ <;>
    · intro he
      subst he
      revert h
      decide

theorem isIntCh_ne_dq {c : Char} (h : isIntCh c = true) : c ≠ dq := by
  unfold isIntCh at h
  rcases Bool.or_eq_true_iff.mp h with h | h
  · intro he
    subst he
    revert h
    decide
  · simp only [decide_eq_true_eq] at h
    subst h
    decide

theorem printTok_scalar_chars {hn : Bool} {v : Value} (h : isScalarB hn v = true) :
    ∀ c ∈ printTok v, scalarChar c = true := by
  intro c hc
  cases v with
  | vnull =>
    have hc' : c ∈ (['n', 'u', 'l', 'l'] : List Char) := hc
    fin_cases hc' <;> decide
  | vbool b =>
    cases b
    · have hc' : c ∈ (['f', 'a', 'l', 's', 'e'] : List Char) := hc
      fin_cases hc' <;> decide
    · have hc' : c ∈ (['t', 'r', 'u', 'e'] : List Char) := hc
      fin_cases hc' <;> decide
  | vint n => exact isIntCh_scalarChar (printInt_chars n c hc)
  | vstr s =>
    simp only [isScalarB, List.all_eq_true] at h
    have hc2 : c ∈ dq :: (s ++ [dq]) := hc
    rcases List.mem_cons.mp hc2 with rfl | hc2
    · decide
    · rcases List.mem_append.mp hc2 with hc2 | hc2
      · exact isStrChar_scalarChar (h c hc2)
      · rcases List.mem_singleton.mp hc2 with rfl
        decide
  | vseq xs => simp [isScalarB] at h
  | vmap kvs => simp [isScalarB] at h

theorem printTok_scalar_ne_nil {hn : Bool} {v : Value} (h : isScalarB hn v = true) :
    printTok v ≠ [] := by
  cases v with
  | vnull => show nullTok ≠ []; decide
  | vbool b => cases b <;> simp [printTok, trueTok, falseTok]
  | vint n => exact printInt_ne_nil n
  | vstr s => simp [printTok]
  | vseq xs => simp [isScalarB] at h
  | vmap kvs => simp [isScalarB] at h

/-! ### Scalar token round trip -/

theorem parseScalar_printTok {hn : Bool} {v : Value} (h : isScalarB hn v = true) :
    parseScalar hn (printTok v) = some v := by
  cases v with
  | vnull =>
    have hhn : hn = true := h
    show parseScalar hn nullTok = some .vnull
    unfold parseScalar
    rw [if_pos ⟨hhn, rfl⟩]
  | vbool b =>
    cases b
    · show parseScalar hn falseTok = some (.vbool false)
      unfold parseScalar
      rw [if_neg (by rintro ⟨-, h2⟩; exact absurd h2 (by decide)),
        if_neg (by decide), if_pos rfl]
    · show parseScalar hn trueTok = some (.vbool true)
      unfold parseScalar
      rw [if_neg (by rintro ⟨-, h2⟩; exact absurd h2 (by decide)), if_pos rfl]
  | vint n =>
    show parseScalar hn (printInt n) = some (.vint n)
    have hnull : printInt n ≠ nullTok :=
      ne_of_all_mem_not (printInt_chars n) (by decide : 'n' ∈ nullTok) (by decide)
    have htrue : printInt n ≠ trueTok :=
      ne_of_all_mem_not (printInt_chars n) (by decide : 't' ∈ trueTok) (by decide)
    have hfalse : printInt n ≠ falseTok :=
      ne_of_all_mem_not (printInt_chars n) (by decide : 'f' ∈ falseTok) (by decide)
    obtain ⟨c, cs, hcs⟩ : ∃ c cs, printInt n = c :: cs := by
      cases hp : printInt n with
      | nil => exact absurd hp (printInt_ne_nil n)
      | cons c cs => exact ⟨c, cs, rfl⟩
    have hcdq : c ≠ dq := isIntCh_ne_dq (printInt_chars n c (hcs ▸ List.mem_cons_self c cs))
    have hhead : ¬((printInt n).head? = some dq) := by
      rw [hcs]
      intro hh
      exact hcdq (Option.some.inj hh)
    unfold parseScalar
    rw [if_neg (by rintro ⟨-, h2⟩; exact hnull h2), if_neg htrue, if_neg hfalse,
      if_neg hhead, parseInt_printInt]
    rfl
  | vstr s =>
    have hs : s.all isStrChar = true := h
    show parseScalar hn (dq :: (s ++ [dq])) = some (.vstr s)
    have hnull : dq :: (s ++ [dq]) ≠ nullTok := by
      intro h2
      rw [show nullTok = 'n' :: ['u', 'l', 'l'] from rfl] at h2
      exact absurd (List.cons.inj h2).1 (by decide)
    have htrue : dq :: (s ++ [dq]) ≠ trueTok := by
      intro h2
      rw [show trueTok = 't' :: ['r', 'u', 'e'] from rfl] at h2
      exact absurd (List.cons.inj h2).1 (by decide)
    have hfalse : dq :: (s ++ [dq]) ≠ falseTok := by
      intro h2
      rw [show falseTok = 'f' :: ['a', 'l', 's', 'e'] from rfl] at h2
      exact absurd (List.cons.inj h2).1 (by decide)
    unfold parseScalar
    rw [if_neg (by rintro ⟨-, h2⟩; exact hnull h2), if_neg htrue, if_neg hfalse,
      if_pos (show (dq :: (s ++ [dq])).head? = some dq from rfl)]
    show (if (s ++ [dq]).getLast? = some dq ∧ (s ++ [dq]).dropLast.all isStrChar = true
      then some (Value.vstr (s ++ [dq]).dropLast) else none) = some (Value.vstr s)
    rw [List.getLast?_concat, List.dropLast_concat]
    rw [if_pos ⟨rfl, hs⟩]
  | vseq xs => simp [isScalarB] at h
  | vmap kvs => simp [isScalarB] at h

/-! ### Inline token round trip -/

theorem printTokList_eq_map : ∀ xs : List Value, printTokList xs = xs.map printTok := by
  intro xs
  induction xs with
  | nil => rfl
  | cons x xs ih => simp [printTokList, ih]

theorem joinChar_cons_ne_nil {sep : Char} {t : List Char} (ts : List (List Char))
    (h : t ≠ []) : joinChar sep (t :: ts) ≠ [] := by
  cases ts with
  | nil => exact h
  | cons q qs =>
    show t ++ sep :: joinChar sep (q :: qs) ≠ []
    simp

theorem parseTok_eq_parseScalar {hn : Bool} {s : List Char}
    (hall : ∀ c ∈ s, scalarChar c = true) (hne : s ≠ []) :
    parseTok hn s = parseScalar hn s := by
  cases s with
  | nil => exact absurd rfl hne
  | cons c t =>
    have hc := scalarChar_facts (hall c (List.mem_cons_self c t))
    simp only [parseTok]
    rw [if_neg hc.1, if_neg hc.2.1]

theorem isEntryValB_iff {hn : Bool} {v : Value} :
    isEntryValB hn v = true ↔
      (isScalarB hn v = true ∨
       (∃ xs, v = .vseq xs ∧ xs.all (isScalarB hn) = true) ∨ v = .vmap []) := by
  cases v with
  | vnull => simp [isEntryValB, isScalarB]
  | vbool b => simp [isEntryValB, isScalarB]
  | vint n => simp [isEntryValB, isScalarB]
  | vstr s => simp [isEntryValB, isScalarB]
  | vseq xs => simp [isEntryValB, isScalarB]
  | vmap kvs => cases kvs <;> simp [isEntryValB, isScalarB]

theorem parseTok_printTok {hn : Bool} {v : Value} (h : isEntryValB hn v = true) :
    parseTok hn (printTok v) = some v := by
  rcases isEntryValB_iff.mp h with hsc | ⟨xs, rfl, hxs⟩ | rfl
  · rw [parseTok_eq_parseScalar (printTok_scalar_chars hsc) (printTok_scalar_ne_nil hsc)]
    exact parseScalar_printTok hsc
  · show parseTok hn ('[' :: (joinChar ',' (printTokList xs) ++ [']'])) = _
    simp only [parseTok]
    rw [if_pos trivial, List.getLast?_concat, if_pos rfl, List.dropLast_concat,
      printTokList_eq_map]
    cases xs with
    | nil => rfl
    | cons x xs' =>
      have hx : isScalarB hn x = true := by
        rw [List.all_eq_true] at hxs
        exact hxs x (List.mem_cons_self x xs')
      have hjne : joinChar ',' ((x :: xs').map printTok) ≠ [] := by
        rw [List.map_cons]
        exact joinChar_cons_ne_nil _ (printTok_scalar_ne_nil hx)
      have hparts : ∀ p ∈ (x :: xs').map printTok, ',' ∉ p := by
        intro p hp hcomma
        rw [List.mem_map] at hp
        obtain ⟨y, hy, rfl⟩ := hp
        have hys : isScalarB hn y = true := by
          rw [List.all_eq_true] at hxs
          exact hxs y hy
        exact absurd (printTok_scalar_chars hys ',' hcomma) (by decide)
      have hinv : ∀ y ∈ x :: xs', parseScalar hn (printTok y) = some y := by
        intro y hy
        have hys : isScalarB hn y = true := by
          rw [List.all_eq_true] at hxs
          exact hxs y hy
        exact parseScalar_printTok hys
      rw [if_neg hjne, splitChar_joinChar (by simp) hparts,
        mapOpt_map_of_inverse hinv]
  · cases hn <;> rfl

/-! ### Entry-line round trips -/

theorem key_chars_of_isKeyB {k : List Char} (h : isKeyB k = true) :
    k ≠ [] ∧ ∀ c ∈ k, isKeyChar c = true := by
  unfold isKeyB at h
  simp only [Bool.and_eq_true] at h
  obtain ⟨h1, h2⟩ := h
  constructor
  · intro he
    subst he
    simp at h1
  · rw [List.all_eq_true] at h2
    exact h2

theorem parseEntryYaml_print {k : List Char} {v : Value}
    (hk : isKeyB k = true) (hv : isEntryValB true v = true) :
    parseEntryYaml (k ++ ':' :: ' ' :: printTok v) = some (k, v) := by
  obtain ⟨hkne, hkall⟩ := key_chars_of_isKeyB hk
  simp only [parseEntryYaml]
  rw [takeWhile_append_all _ hkall, takeWhile_cons_neg _ (by decide),
    List.append_nil, dropWhile_append_all _ hkall, dropWhile_cons_neg _ (by decide),
    if_neg hkne]
  show (parseTok true (printTok v)).map (fun w => (k, w)) = some (k, v)
  rw [parseTok_printTok hv]
  rfl

theorem parseEntryToml_print {k : List Char} {v : Value}
    (hk : isKeyB k = true) (hv : isEntryValB false v = true) :
    parseEntryToml (k ++ ' ' :: '=' :: ' ' :: printTok v) = some (k, v) := by
  obtain ⟨hkne, hkall⟩ := key_chars_of_isKeyB hk
  simp only [parseEntryToml]
  rw [takeWhile_append_all _ hkall, takeWhile_cons_neg _ (by decide),
    List.append_nil, dropWhile_append_all _ hkall, dropWhile_cons_neg _ (by decide),
    if_neg hkne]
  show (parseTok false (printTok v)).map (fun w => (k, w)) = some (k, v)
  rw [parseTok_printTok hv]
  rfl

theorem parseEntryJson_print {k : List Char} {v : Value}
    (hk : isKeyB k = true) (hv : isEntryValB true v = true) :
    parseEntryJson (jsonEntryLine (k, v)) = some (k, v) := by
  obtain ⟨hkne, hkall⟩ := key_chars_of_isKeyB hk
  have step1 : parseEntryJson (jsonEntryLine (k, v)) =
      (if (k ++ dq :: ':' :: ' ' :: printTok v).takeWhile isKeyChar = [] then none
       else
         match (k ++ dq :: ':' :: ' ' :: printTok v).dropWhile isKeyChar with
         | c2 :: ':' :: ' ' :: tok =>
           if c2 = dq then
             (parseTok true tok).map
               (fun w => ((k ++ dq :: ':' :: ' ' :: printTok v).takeWhile isKeyChar, w))
           else none
         | _ => none) := rfl
  rw [step1, takeWhile_append_all _ hkall, takeWhile_cons_neg _ (by decide),
    List.append_nil, dropWhile_append_all _ hkall, dropWhile_cons_neg _ (by decide),
    if_neg hkne]
  show (if dq = dq then (parseTok true (printTok v)).map (fun w => (k, w)) else none)
    = some (k, v)
  rw [if_pos rfl, parseTok_printTok hv]
  rfl

/-! ### Characters of printed entry values, and line well-formedness -/

/-- Characters that can occur in any printed inline token. -/
def tokChar (c : Char) : Bool :=
  scalarChar c || c = ',' || c = '[' || c = ']' || c = lbrace || c = rbrace

theorem scalarChar_tokChar {c : Char} (h : scalarChar c = true) : tokChar c = true := by
  simp [tokChar, h]

theorem printTok_entryVal_chars {hn : Bool} {v : Value} (h : isEntryValB hn v = true) :
    ∀ c ∈ printTok v, tokChar c = true := by
  rcases isEntryValB_iff.mp h with hsc | ⟨xs, rfl, hxs⟩ | rfl
  · exact fun c hc => scalarChar_tokChar (printTok_scalar_chars hsc c hc)
  · intro c hc
    have hc2 : c ∈ '[' :: (joinChar ',' (printTokList xs) ++ [']']) := hc
    rcases List.mem_cons.mp hc2 with rfl | hc2
    · decide
    · rcases List.mem_append.mp hc2 with hc2 | hc2
      · rcases mem_joinChar hc2 with rfl | ⟨p, hp, hcp⟩
        · decide
        · rw [printTokList_eq_map, List.mem_map] at hp
          obtain ⟨y, hy, rfl⟩ := hp
          have hys : isScalarB hn y = true := by
            rw [List.all_eq_true] at hxs
            exact hxs y hy
          exact scalarChar_tokChar (printTok_scalar_chars hys c hcp)
      · rcases List.mem_singleton.mp hc2 with rfl
        decide
  · intro c hc
    have hc2 : c ∈ [lbrace, rbrace] := hc
    fin_cases hc2 <;> decide

theorem printTok_entryVal_ne_nil {hn : Bool} {v : Value} (h : isEntryValB hn v = true) :
    printTok v ≠ [] := by
  rcases isEntryValB_iff.mp h with hsc | ⟨xs, rfl, _⟩ | rfl
  · exact printTok_scalar_ne_nil hsc
  · show '[' :: _ ≠ []
    simp
  · show lbrace :: _ ≠ []
    simp

theorem no_nl_printTok {hn : Bool} {v : Value} (hv : isEntryValB hn v = true) :
    '\n' ∉ printTok v :=
  fun h => absurd (printTok_entryVal_chars hv '\n' h) (by decide)

theorem keyChar_ne {c : Char} (h : isKeyChar c = true) :
    c ≠ '[' ∧ c ≠ lbrace ∧ c ≠ dq ∧ c ≠ '\n' := by
  refine ⟨?_, ?_, ?_, ?_⟩ <;>
    · intro he
      subst he
      revert h
      decide

theorem append_ne_nil_left {k r : List Char} (h : k ≠ []) : k ++ r ≠ [] := by
  cases k with
  | nil => exact absurd rfl h
  | cons a k' => simp

theorem no_nl_key_line {k r : List Char} (hkall : ∀ c ∈ k, isKeyChar c = true)
    (hr : '\n' ∉ r) : '\n' ∉ k ++ r := by
  intro hmem
  rcases List.mem_append.mp hmem with h | h
  · exact absurd (hkall _ h) (by decide)
  · exact hr h

/-! ### Disambiguation: a `key: ...` line is not an inline token -/

theorem parseTok_keyColon_none {k r : List Char} (hk : isKeyB k = true) :
    parseTok true (k ++ ':' :: r) = none := by
  obtain ⟨hkne, hkall⟩ := key_chars_of_isKeyB hk
  cases k with
  | nil => exact absurd rfl hkne
  | cons a k' =>
    have ha := keyChar_ne (hkall a (List.mem_cons_self a k'))
    have hcolon : ':' ∈ a :: (k' ++ ':' :: r) := by
      apply List.mem_cons_of_mem
      exact List.mem_append.mpr (Or.inr (List.mem_cons_self ':' r))
    rw [List.cons_append]
    simp only [parseTok]
    rw [if_neg ha.1, if_neg ha.2.1]
    unfold parseScalar
    rw [if_neg (by rintro ⟨-, h2⟩; exact ne_of_mem_notMem hcolon (by decide) h2),
      if_neg (ne_of_mem_notMem hcolon (by decide)),
      if_neg (ne_of_mem_notMem hcolon (by decide)),
      if_neg (by intro hh; exact ha.2.2.1 (Option.some.inj hh))]
    cases hpi : parseInt (a :: (k' ++ ':' :: r)) with
    | none => rfl
    | some i =>
      have := parseInt_chars hpi ':' hcolon
      exact absurd this (by decide)

/-! ### Document-level round trips -/

/-- The yaml block entry line for one mapping entry. -/
def yamlEntryLine (kv : List Char × Value) : List Char :=
  kv.1 ++ ':' :: ' ' :: printTok kv.2

/-- The toml entry line for one mapping entry. -/
def tomlEntryLine (kv : List Char × Value) : List Char :=
  kv.1 ++ ' ' :: '=' :: ' ' :: printTok kv.2

theorem flatDoc_entries {hn : Bool} {kvs : List (List Char × Value)}
    (h : isFlatDocB hn (.vmap kvs) = true) :
    ∀ kv ∈ kvs, isKeyB kv.1 = true ∧ isEntryValB hn kv.2 = true := by
  intro kv hkv
  have h' : kvs.all (fun kv => isKeyB kv.1 && isEntryValB hn kv.2) = true := h
  rw [List.all_eq_true] at h'
  have := h' kv hkv
  rwa [Bool.and_eq_true] at this

theorem yamlLoad_printTok_aux {v : Value} (hv : isEntryValB true v = true) :
    yamlLoad (printTok v) = .ok v := by
  have hne := printTok_entryVal_ne_nil hv
  have hnl := no_nl_printTok hv
  unfold yamlLoad
  rw [if_neg hne, splitChar_no_sep hnl]
  simp only [yamlLoadLines]
  rw [parseTok_printTok hv]

theorem yamlDumpDoc_load {v : Value} (h : isFlatDocB true v = true) :
    yamlLoad (yamlDumpDoc v) = .ok v := by
  cases v with
  | vmap kvs =>
    cases kvs with
    | nil => rfl
    | cons kv kvs' =>
      have hall := flatDoc_entries h
      have hlines : ∀ l ∈ (kv :: kvs').map yamlEntryLine, '\n' ∉ l := by
        intro l hl
        rw [List.mem_map] at hl
        obtain ⟨kv', hkv', rfl⟩ := hl
        obtain ⟨hk, hv⟩ := hall kv' hkv'
        exact no_nl_key_line (key_chars_of_isKeyB hk).2 (by
          intro hmem
          rcases List.mem_cons.mp hmem with heq | hmem
          · exact absurd heq (by decide)
          · rcases List.mem_cons.mp hmem with heq | hmem
            · exact absurd heq (by decide)
            · exact no_nl_printTok hv hmem)
      have hfirst : yamlEntryLine kv ≠ [] :=
        append_ne_nil_left (key_chars_of_isKeyB (hall kv (List.mem_cons_self kv kvs')).1).1
      have hcne : joinChar '\n' ((kv :: kvs').map yamlEntryLine) ≠ [] := by
        rw [List.map_cons]
        exact joinChar_cons_ne_nil _ hfirst
      have hinv : ∀ kv' ∈ kv :: kvs', parseEntryYaml (yamlEntryLine kv') = some kv' := by
        intro kv' hkv'
        obtain ⟨hk, hv⟩ := hall kv' hkv'
        show parseEntryYaml (kv'.1 ++ ':' :: ' ' :: printTok kv'.2) = some kv'
        rw [parseEntryYaml_print hk hv]
      show yamlLoad (joinChar '\n' ((kv :: kvs').map yamlEntryLine)) = _
      unfold yamlLoad
      rw [if_neg hcne, splitChar_joinChar (by simp) hlines]
      cases kvs' with
      | nil =>
        show yamlLoadLines [yamlEntryLine kv] = _
        simp only [yamlLoadLines]
        have hk := (hall kv (List.mem_cons_self kv [])).1
        rw [show yamlEntryLine kv = kv.1 ++ ':' :: (' ' :: printTok kv.2) from rfl,
          parseTok_keyColon_none hk]
        rw [show kv.1 ++ ':' :: (' ' :: printTok kv.2) = yamlEntryLine kv from rfl]
        rw [hinv kv (List.mem_cons_self kv [])]
      | cons kv2 kvs'' =>
        show yamlLoadLines
          (yamlEntryLine kv :: yamlEntryLine kv2 :: kvs''.map yamlEntryLine) = _
        simp only [yamlLoadLines]
        rw [show yamlEntryLine kv :: yamlEntryLine kv2 :: kvs''.map yamlEntryLine
          = (kv :: kv2 :: kvs'').map yamlEntryLine from rfl]
        rw [mapOpt_map_of_inverse hinv]
  | vnull => exact yamlLoad_printTok_aux h
  | vbool b => exact yamlLoad_printTok_aux h
  | vint n => exact yamlLoad_printTok_aux h
  | vstr s => exact yamlLoad_printTok_aux h
  | vseq xs => exact yamlLoad_printTok_aux h

theorem commaMark_chars :
    ∀ {ls : List (List Char)} {l' : List Char} {c : Char},
      l' ∈ commaMark ls → c ∈ l' → c = ',' ∨ ∃ l ∈ ls, c ∈ l := by
  intro ls
  induction ls with
  | nil => intro l' c hl' _; simp [commaMark] at hl'
  | cons l ls ih =>
    intro l' c hl' hc
    cases ls with
    | nil =>
      rcases List.mem_singleton.mp hl' with rfl
      exact Or.inr ⟨_, List.mem_cons_self _ _, hc⟩
    | cons m ms =>
      have hl'2 : l' ∈ (l ++ [',']) :: commaMark (m :: ms) := hl'
      rcases List.mem_cons.mp hl'2 with rfl | hl'3
      · rcases List.mem_append.mp hc with hcl | hcc
        · exact Or.inr ⟨l, List.mem_cons_self l _, hcl⟩
        · exact Or.inl (List.mem_singleton.mp hcc)
      · rcases ih hl'3 hc with h | ⟨l2, hl2, hcl2⟩
        · exact Or.inl h
        · exact Or.inr ⟨l2, List.mem_cons_of_mem l hl2, hcl2⟩

theorem jsonLoad_printTok_aux {v : Value} (hv : isEntryValB true v = true) :
    jsonLoad (printTok v) = .ok v := by
  have hnl := no_nl_printTok hv
  unfold jsonLoad
  rw [splitChar_no_sep hnl]
  simp only [jsonLoadLines]
  rw [parseTok_printTok hv]

theorem jsonDumpDoc_load {v : Value} (h : isFlatDocB true v = true) :
    jsonLoad (jsonDumpDoc v) = .ok v := by
  cases v with
  | vmap kvs =>
    have hall := flatDoc_entries h
    have hentrynl : ∀ l ∈ kvs.map jsonEntryLine, '\n' ∉ l := by
      intro l hl
      rw [List.mem_map] at hl
      obtain ⟨kv', hkv', rfl⟩ := hl
      obtain ⟨hk, hv⟩ := hall kv' hkv'
      intro hmem
      have hmem2 : '\n' ∈ ' ' :: ' ' :: dq :: (kv'.1 ++ dq :: ':' :: ' ' :: printTok kv'.2) :=
        hmem
      rcases List.mem_cons.mp hmem2 with heq | hmem3
      · exact absurd heq (by decide)
      · rcases List.mem_cons.mp hmem3 with heq | hmem4
        · exact absurd heq (by decide)
        · rcases List.mem_cons.mp hmem4 with heq | hmem5
          · exact absurd heq (by decide)
          · refine no_nl_key_line (key_chars_of_isKeyB hk).2 ?_ hmem5
            intro hmem6
            rcases List.mem_cons.mp hmem6 with heq | hmem7
            · exact absurd heq (by decide)
            · rcases List.mem_cons.mp hmem7 with heq | hmem8
              · exact absurd heq (by decide)
              · rcases List.mem_cons.mp hmem8 with heq | hmem9
                · exact absurd heq (by decide)
                · exact no_nl_printTok hv hmem9
    have hlines : ∀ l ∈ [lbrace] :: (commaMark (kvs.map jsonEntryLine) ++ [[rbrace]]),
        '\n' ∉ l := by
      intro l hl
      rcases List.mem_cons.mp hl with rfl | hl2
      · intro hmem
        rcases List.mem_singleton.mp hmem with heq
        exact absurd heq (by decide)
      · rcases List.mem_append.mp hl2 with hl3 | hl3
        · intro hmem
          rcases commaMark_chars hl3 hmem with heq | ⟨l2, hl2', hcl2⟩
          · exact absurd heq (by decide)
          · exact hentrynl l2 hl2' hcl2
        · rcases List.mem_singleton.mp hl3 with rfl
          intro hmem
          rcases List.mem_singleton.mp hmem with heq
          exact absurd heq (by decide)
    show jsonLoad (joinChar '\n'
      ([lbrace] :: (commaMark (kvs.map jsonEntryLine) ++ [[rbrace]]))) = _
    unfold jsonLoad
    rw [splitChar_joinChar (by simp) hlines]
    obtain ⟨m, ms, hm⟩ : ∃ m ms,
        commaMark (kvs.map jsonEntryLine) ++ [[rbrace]] = m :: ms := by
      cases hcm : commaMark (kvs.map jsonEntryLine) with
      | nil => exact ⟨[rbrace], [], by simp⟩
      | cons a as => exact ⟨a, as ++ [[rbrace]], by simp⟩
    rw [hm]
    simp only [jsonLoadLines]
    have hlast : (m :: ms).getLast? = some [rbrace] := by
      rw [← hm, List.getLast?_concat]
    have hdrop : (m :: ms).dropLast = commaMark (kvs.map jsonEntryLine) := by
      rw [← hm, List.dropLast_concat]
    rw [if_pos ⟨trivial, hlast⟩, hdrop, uncomma_commaMark]
    show (match mapOpt parseEntryJson (kvs.map jsonEntryLine) with
      | some kvs => Except.ok (Value.vmap kvs)
      | none => Except.error ()) = _
    rw [mapOpt_map_of_inverse
      (fun kv hkv => parseEntryJson_print (hall kv hkv).1 (hall kv hkv).2)]
  | vnull => exact jsonLoad_printTok_aux h
  | vbool b => exact jsonLoad_printTok_aux h
  | vint n => exact jsonLoad_printTok_aux h
  | vstr s => exact jsonLoad_printTok_aux h
  | vseq xs => exact jsonLoad_printTok_aux h

theorem scalar_no_null {v : Value} (h : isScalarB false v = true) :
    hasNullVal v = false := by
  cases v with
  | vnull => simp [isScalarB] at h
  | vbool b => rfl
  | vint n => rfl
  | vstr s => rfl
  | vseq xs => simp [isScalarB] at h
  | vmap kvs => simp [isScalarB] at h

theorem hasNullList_false {xs : List Value}
    (hxs : ∀ x ∈ xs, isScalarB false x = true) : hasNullList xs = false := by
  induction xs with
  | nil => rfl
  | cons x xs' ih =>
    show (hasNullVal x || hasNullList xs') = false
    rw [scalar_no_null (hxs x (List.mem_cons_self x xs')),
      ih (fun y hy => hxs y (List.mem_cons_of_mem x hy))]
    rfl

theorem entryVal_no_null {v : Value} (h : isEntryValB false v = true) :
    hasNullVal v = false := by
  rcases isEntryValB_iff.mp h with hsc | ⟨xs, rfl, hxs⟩ | rfl
  · exact scalar_no_null hsc
  · show hasNullList xs = false
    rw [List.all_eq_true] at hxs
    exact hasNullList_false hxs
  · rfl

theorem hasNullEntries_false {kvs : List (List Char × Value)}
    (hall : ∀ kv ∈ kvs, isEntryValB false kv.2 = true) :
    hasNullEntries kvs = false := by
  induction kvs with
  | nil => rfl
  | cons kv kvs' ih =>
    show (hasNullVal kv.2 || hasNullEntries kvs') = false
    rw [entryVal_no_null (hall kv (List.mem_cons_self kv kvs')),
      ih (fun y hy => hall y (List.mem_cons_of_mem kv hy))]
    rfl

theorem tomlDumpDoc_load {kvs : List (List Char × Value)}
    (h : isFlatDocB false (.vmap kvs) = true) :
    tomlDumpDoc (.vmap kvs) = .ok (joinChar '\n' (kvs.map tomlEntryLine)) ∧
    tomlLoad (joinChar '\n' (kvs.map tomlEntryLine)) = .ok (.vmap kvs) := by
  have hall := flatDoc_entries h
  have hnn : hasNullEntries kvs = false :=
    hasNullEntries_false (fun kv hkv => (hall kv hkv).2)
  constructor
  · show (if hasNullVal (Value.vmap kvs) = true then Except.error ()
      else Except.ok (joinChar '\n'
        (kvs.map (fun kv => kv.1 ++ ' ' :: '=' :: ' ' :: printTok kv.2)))) = _
    rw [if_neg (by
      show ¬(hasNullEntries kvs = true)
      rw [hnn]
      exact Bool.false_ne_true)]
    rfl
  · cases kvs with
    | nil => rfl
    | cons kv kvs' =>
      have hlines : ∀ l ∈ (kv :: kvs').map tomlEntryLine, '\n' ∉ l := by
        intro l hl
        rw [List.mem_map] at hl
        obtain ⟨kv', hkv', rfl⟩ := hl
        obtain ⟨hk, hv⟩ := hall kv' hkv'
        refine no_nl_key_line (key_chars_of_isKeyB hk).2 ?_
        intro hmem
        rcases List.mem_cons.mp hmem with heq | hmem2
        · exact absurd heq (by decide)
        · rcases List.mem_cons.mp hmem2 with heq | hmem3
          · exact absurd heq (by decide)
          · rcases List.mem_cons.mp hmem3 with heq | hmem4
            · exact absurd heq (by decide)
            · exact no_nl_printTok hv hmem4
      have hfirst : tomlEntryLine kv ≠ [] :=
        append_ne_nil_left (key_chars_of_isKeyB (hall kv (List.mem_cons_self kv kvs')).1).1
      have hcne : joinChar '\n' ((kv :: kvs').map tomlEntryLine) ≠ [] := by
        rw [List.map_cons]
        exact joinChar_cons_ne_nil _ hfirst
      have hinv : ∀ kv' ∈ kv :: kvs', parseEntryToml (tomlEntryLine kv') = some kv' :=
        fun kv' hkv' => parseEntryToml_print (hall kv' hkv').1 (hall kv' hkv').2
      unfold tomlLoad
      rw [if_neg hcne, splitChar_joinChar (by simp) hlines]
      rw [mapOpt_map_of_inverse hinv]

/-! ### Parser soundness: parsed values lie in the flat fragment -/

theorem parseScalar_sound {hn : Bool} {s : List Char} {v : Value}
    (h : parseScalar hn s = some v) : isScalarB hn v = true := by
  unfold parseScalar at h
  split_ifs at h with h1 h2 h3 h4 h5
  · rcases Option.some.inj h with rfl
    exact h1.1
  · rcases Option.some.inj h with rfl
    rfl
  · rcases Option.some.inj h with rfl
    rfl
  · rcases Option.some.inj h with rfl
    exact h5.2
  · cases hpi : parseInt s with
    | none => rw [hpi] at h; exact absurd h (by simp)
    | some i =>
      rw [hpi] at h
      rcases Option.some.inj h with rfl
      rfl

theorem parseTok_sound {hn : Bool} {s : List Char} {v : Value}
    (h : parseTok hn s = some v) : isEntryValB hn v = true := by
  cases s with
  | nil => exact absurd h (by simp [parseTok])
  | cons c t =>
    simp only [parseTok] at h
    split_ifs at h with h1 h2 h3 h4
    · rcases Option.some.inj h with rfl
      rfl
    · cases hm : mapOpt (parseScalar hn) (splitChar ',' t.dropLast) with
      | none => rw [hm] at h; exact absurd h (by simp)
      | some vs =>
        rw [hm] at h
        rcases Option.some.inj h with rfl
        have hall : ∀ x ∈ vs, isScalarB hn x = true := by
          intro x hx
          obtain ⟨p, _, hp⟩ := mapOpt_mem_exists hm x hx
          exact parseScalar_sound hp
        exact isEntryValB_iff.mpr (Or.inr (Or.inl ⟨vs, rfl, List.all_eq_true.mpr hall⟩))
    · rcases Option.some.inj h with rfl
      rfl
    · have hsc := parseScalar_sound h
      simp [isEntryValB, hsc]

theorem isEntryValB_isFlatDocB {hn : Bool} {v : Value}
    (h : isEntryValB hn v = true) : isFlatDocB hn v = true := by
  cases v with
  | vmap kvs =>
    rcases isEntryValB_iff.mp h with hsc | ⟨xs, hxs, _⟩ | heq
    · simp [isScalarB] at hsc
    · exact absurd hxs (by simp)
    · rcases Value.vmap.inj heq with rfl
      rfl
  | vnull => exact h
  | vbool b => exact h
  | vint n => exact h
  | vstr s => exact h
  | vseq xs => exact h

theorem key_sound {line : List Char} (hne : line.takeWhile isKeyChar ≠ []) :
    isKeyB (line.takeWhile isKeyChar) = true := by
  unfold isKeyB
  rw [Bool.and_eq_true]
  constructor
  · cases hk : line.takeWhile isKeyChar with
    | nil => exact absurd hk hne
    | cons a k' => rfl
  · rw [List.all_eq_true]
    exact all_takeWhile line

theorem parseEntryYaml_sound {line : List Char} {k : List Char} {v : Value}
    (h : parseEntryYaml line = some (k, v)) :
    isKeyB k = true ∧ isEntryValB true v = true := by
  simp only [parseEntryYaml] at h
  split_ifs at h with h1
  split at h
  case _ tok heq =>
    cases hpt : parseTok true tok with
    | none => rw [hpt] at h; exact absurd h (by simp)
    | some w =>
      rw [hpt] at h
      simp only [Option.map_some', Option.some.injEq, Prod.mk.injEq] at h
      obtain ⟨rfl, rfl⟩ := h
      exact ⟨key_sound h1, parseTok_sound hpt⟩
  case _ => exact absurd h (by simp)

theorem parseEntryToml_sound {line : List Char} {k : List Char} {v : Value}
    (h : parseEntryToml line = some (k, v)) :
    isKeyB k = true ∧ isEntryValB false v = true := by
  simp only [parseEntryToml] at h
  split_ifs at h with h1
  split at h
  case _ tok heq =>
    cases hpt : parseTok false tok with
    | none => rw [hpt] at h; exact absurd h (by simp)
    | some w =>
      rw [hpt] at h
      simp only [Option.map_some', Option.some.injEq, Prod.mk.injEq] at h
      obtain ⟨rfl, rfl⟩ := h
      exact ⟨key_sound h1, parseTok_sound hpt⟩
  case _ => exact absurd h (by simp)

theorem parseEntryJson_sound {line : List Char} {k : List Char} {v : Value}
    (h : parseEntryJson line = some (k, v)) :
    isKeyB k = true ∧ isEntryValB true v = true := by
  unfold parseEntryJson at h
  split at h
  case _ c rest =>
    split_ifs at h with h1 h2
    split at h
    case _ c2 tok heq =>
      split_ifs at h with h3
      cases hpt : parseTok true tok with
      | none => rw [hpt] at h; exact absurd h (by simp)
      | some w =>
        rw [hpt] at h
        simp only [Option.map_some', Option.some.injEq, Prod.mk.injEq] at h
        obtain ⟨rfl, rfl⟩ := h
        exact ⟨key_sound h2, parseTok_sound hpt⟩
    case _ => exact absurd h (by simp)
  case _ => exact absurd h (by simp)

theorem yamlLoadLines_sound {ls : List (List Char)} {v : Value}
    (h : yamlLoadLines ls = .ok v) : isFlatDocB true v = true := by
  match ls with
  | [] => exact absurd h (by simp [yamlLoadLines])
  | [l] =>
    simp only [yamlLoadLines] at h
    cases hpt : parseTok true l with
    | some w =>
      rw [hpt] at h
      rcases Except.ok.inj h with rfl
      exact isEntryValB_isFlatDocB (parseTok_sound hpt)
    | none =>
      rw [hpt] at h
      cases hpe : parseEntryYaml l with
      | none => rw [hpe] at h; exact absurd h (by simp)
      | some kv =>
        rw [hpe] at h
        rcases Except.ok.inj h with rfl
        show ([kv].all fun kv => isKeyB kv.1 && isEntryValB true kv.2) = true
        obtain ⟨k, w⟩ := kv
        obtain ⟨hk, hv⟩ := parseEntryYaml_sound hpe
        simp [hk, hv]
  | l1 :: l2 :: ls' =>
    simp only [yamlLoadLines] at h
    cases hme : mapOpt parseEntryYaml (l1 :: l2 :: ls') with
    | none => rw [hme] at h; exact absurd h (by simp)
    | some kvs =>
      rw [hme] at h
      rcases Except.ok.inj h with rfl
      show (kvs.all fun kv => isKeyB kv.1 && isEntryValB true kv.2) = true
      rw [List.all_eq_true]
      intro kv hkv
      obtain ⟨l, _, hl⟩ := mapOpt_mem_exists hme kv hkv
      obtain ⟨hk, hv⟩ := parseEntryYaml_sound (by rw [hl])
      simp [hk, hv]

theorem yamlLoad_sound {c : List Char} {v : Value}
    (h : yamlLoad c = .ok v) : isFlatDocB true v = true := by
  unfold yamlLoad at h
  split_ifs at h with h1
  · rcases Except.ok.inj h with rfl
    rfl
  · exact yamlLoadLines_sound h

theorem jsonLoadLines_sound {ls : List (List Char)} {v : Value}
    (h : jsonLoadLines ls = .ok v) : isFlatDocB true v = true := by
  match ls with
  | [] => exact absurd h (by simp [jsonLoadLines])
  | [l] =>
    simp only [jsonLoadLines] at h
    cases hpt : parseTok true l with
    | some w =>
      rw [hpt] at h
      rcases Except.ok.inj h with rfl
      exact isEntryValB_isFlatDocB (parseTok_sound hpt)
    | none => rw [hpt] at h; exact absurd h (by simp)
  | l1 :: l2 :: ls' =>
    simp only [jsonLoadLines] at h
    split_ifs at h with h1
    · split at h
      case _ mids hmid =>
        cases hme : mapOpt parseEntryJson mids with
        | none => rw [hme] at h; exact absurd h (by simp)
        | some kvs =>
          rw [hme] at h
          rcases Except.ok.inj h with rfl
          show (kvs.all fun kv => isKeyB kv.1 && isEntryValB true kv.2) = true
          rw [List.all_eq_true]
          intro kv hkv
          obtain ⟨l, _, hl⟩ := mapOpt_mem_exists hme kv hkv
          obtain ⟨hk, hv⟩ := parseEntryJson_sound (by rw [hl])
          simp [hk, hv]
      case _ => exact absurd h (by simp)

theorem jsonLoad_sound {c : List Char} {v : Value}
    (h : jsonLoad c = .ok v) : isFlatDocB true v = true :=
  jsonLoadLines_sound h

theorem tomlLoad_sound {c : List Char} {v : Value}
    (h : tomlLoad c = .ok v) :
    (∃ kvs, v = .vmap kvs) ∧ isFlatDocB false v = true := by
  unfold tomlLoad at h
  split_ifs at h with h1
  · rcases Except.ok.inj h with rfl
    exact ⟨⟨[], rfl⟩, rfl⟩
  · cases hme : mapOpt parseEntryToml (splitChar '\n' c) with
    | none => rw [hme] at h; exact absurd h (by simp)
    | some kvs =>
      rw [hme] at h
      rcases Except.ok.inj h with rfl
      refine ⟨⟨kvs, rfl⟩, ?_⟩
      show (kvs.all fun kv => isKeyB kv.1 && isEntryValB false kv.2) = true
      rw [List.all_eq_true]
      intro kv hkv
      obtain ⟨l, _, hl⟩ := mapOpt_mem_exists hme kv hkv
      obtain ⟨hk, hv⟩ := parseEntryToml_sound (by rw [hl])
      simp [hk, hv]

/-! ### Reload: writing a loaded value and re-reading it is the identity -/

theorem yaml_reload {c : List Char} {v : Value} (h : yamlLoad c = .ok v) :
    yamlLoad (yamlDumpDoc v) = .ok v :=
  yamlDumpDoc_load (yamlLoad_sound h)

theorem json_reload {c : List Char} {v : Value} (h : jsonLoad c = .ok v) :
    jsonLoad (jsonDumpDoc v) = .ok v :=
  jsonDumpDoc_load (jsonLoad_sound h)

theorem toml_reload {c : List Char} {v : Value} (h : tomlLoad c = .ok v) :
    ∃ s, tomlDumpDoc v = .ok s ∧ tomlLoad s = .ok v := by
  obtain ⟨⟨kvs, rfl⟩, hflat⟩ := tomlLoad_sound h
  obtain ⟨h1, h2⟩ := tomlDumpDoc_load hflat
  exact ⟨_, h1, h2⟩

/-! ### Accepted-character completeness (used for the SafeLoader tag claim) -/

/-- Every character that can occur in a document accepted by the modelled
parsers (newlines excepted). -/
def surfChar (c : Char) : Bool :=
  tokChar c || c = ':' || c = ' ' || c = '='

theorem splitChar_covers (sep : Char) :
    ∀ {s : List Char} {c : Char}, c ∈ s →
      c = sep ∨ ∃ p ∈ splitChar sep s, c ∈ p := by
  intro s
  induction s with
  | nil => intro c hc; simp at hc
  | cons x xs ih =>
    intro c hc
    by_cases hx : x = sep
    · rcases List.mem_cons.mp hc with rfl | hc2
      · exact Or.inl hx
      · rcases ih hc2 with h | ⟨p, hp, hcp⟩
        · exact Or.inl h
        · refine Or.inr ⟨p, ?_, hcp⟩
          show p ∈ splitChar sep (x :: xs)
          simp only [splitChar, if_pos hx]
          exact List.mem_cons_of_mem _ hp
    · obtain ⟨t, ts, hts⟩ : ∃ t ts, splitChar sep xs = t :: ts := by
        cases hs : splitChar sep xs with
        | nil => exact absurd hs (splitChar_ne_nil sep xs)
        | cons t ts => exact ⟨t, ts, rfl⟩
      have hsplit : splitChar sep (x :: xs) = (x :: t) :: ts := by
        simp only [splitChar, if_neg hx, hts]
      rcases List.mem_cons.mp hc with rfl | hc2
      · exact Or.inr ⟨_, hsplit ▸ List.mem_cons_self _ _, List.mem_cons_self _ _⟩
      · rcases ih hc2 with h | ⟨p, hp, hcp⟩
        · exact Or.inl h
        · rw [hts] at hp
          rcases List.mem_cons.mp hp with rfl | hp2
          · exact Or.inr ⟨_, hsplit ▸ List.mem_cons_self _ _,
              List.mem_cons_of_mem _ hcp⟩
          · exact Or.inr ⟨p, hsplit ▸ List.mem_cons_of_mem _ hp2, hcp⟩

theorem isIntCh_surfChar {c : Char} (h : isIntCh c = true) : surfChar c = true := by
  simp [surfChar, tokChar, isIntCh_scalarChar h]

theorem isStrChar_surfChar {c : Char} (h : isStrChar c = true) : surfChar c = true := by
  simp [surfChar, tokChar, isStrChar_scalarChar h]

theorem isKeyChar_surfChar {c : Char} (h : isKeyChar c = true) : surfChar c = true := by
  have : isStrChar c = true := h
  exact isStrChar_surfChar this

theorem parseScalar_chars {hn : Bool} {s : List Char} {v : Value}
    (h : parseScalar hn s = some v) : ∀ c ∈ s, surfChar c = true := by
  unfold parseScalar at h
  split_ifs at h with h1 h2 h3 h4 h5
  · intro c hc
    rw [h1.2] at hc
    have hc2 : c ∈ (['n', 'u', 'l', 'l'] : List Char) := hc
    fin_cases hc2 <;> decide
  · intro c hc
    rw [h2] at hc
    have hc2 : c ∈ (['t', 'r', 'u', 'e'] : List Char) := hc
    fin_cases hc2 <;> decide
  · intro c hc
    rw [h3] at hc
    have hc2 : c ∈ (['f', 'a', 'l', 's', 'e'] : List Char) := hc
    fin_cases hc2 <;> decide
  · intro c hc
    cases s with
    | nil => simp at hc
    | cons c0 t =>
      have hc0 : c0 = dq := by
        have : (c0 :: t).head? = some dq := h4
        exact Option.some.inj this
      subst hc0
      obtain ⟨hlast, hall⟩ := h5
      have hlast' : t.getLast? = some dq := hlast
      have hall' : t.dropLast.all isStrChar = true := hall
      have htne : t ≠ [] := by
        intro he
        rw [he] at hlast'
        simp at hlast'
      have hgl : t.getLast htne = dq := by
        have := List.getLast?_eq_getLast t htne
        rw [this] at hlast'
        exact Option.some.inj hlast'
      rcases List.mem_cons.mp hc with rfl | hct
      · decide
      · rw [← List.dropLast_append_getLast htne] at hct
        rcases List.mem_append.mp hct with hcd | hcg
        · rw [List.all_eq_true] at hall'
          exact isStrChar_surfChar (hall' c hcd)
        · rcases List.mem_singleton.mp hcg with rfl
          rw [hgl]
          decide
  · intro c hc
    cases hpi : parseInt s with
    | none => rw [hpi] at h; exact absurd h (by simp)
    | some i => exact isIntCh_surfChar (parseInt_chars hpi c hc)

theorem parseTok_chars {hn : Bool} {s : List Char} {v : Value}
    (h : parseTok hn s = some v) : ∀ c ∈ s, surfChar c = true := by
  cases s with
  | nil => intro c hc; simp at hc
  | cons c0 t =>
    simp only [parseTok] at h
    split_ifs at h with h1 h2 h3 h4 h5
    · -- empty sequence token
      intro c hc
      rcases List.mem_cons.mp hc with rfl | hct
      · rw [h1]; decide
      · have htform : t = t.dropLast ++ [']'] := by
          have htne : t ≠ [] := by
            intro he
            rw [he] at h2
            simp at h2
          have hgl : t.getLast htne = ']' := by
            have := List.getLast?_eq_getLast t htne
            rw [this] at h2
            exact Option.some.inj h2
          conv_lhs => rw [← List.dropLast_append_getLast htne]
          rw [hgl]
        rw [htform] at hct
        rcases List.mem_append.mp hct with hcd | hcg
        · rw [h3] at hcd
          simp at hcd
        · rcases List.mem_singleton.mp hcg with rfl
          decide
    · intro c hc
      rcases List.mem_cons.mp hc with rfl | hct
      · rw [h1]; decide
      · cases hm : mapOpt (parseScalar hn) (splitChar ',' t.dropLast) with
        | none => rw [hm] at h; exact absurd h (by simp)
        | some vs =>
          have htform : t = t.dropLast ++ [']'] := by
            have htne : t ≠ [] := by
              intro he
              rw [he] at h2
              simp at h2
            have hgl : t.getLast htne = ']' := by
              have := List.getLast?_eq_getLast t htne
              rw [this] at h2
              exact Option.some.inj h2
            conv_lhs => rw [← List.dropLast_append_getLast htne]
            rw [hgl]
          rw [htform] at hct
          rcases List.mem_append.mp hct with hcd | hcg
          · rcases splitChar_covers ',' hcd with rfl | ⟨p, hp, hcp⟩
            · decide
            · obtain ⟨w, hw⟩ := mapOpt_elem_some hm p hp
              exact parseScalar_chars hw c hcp
          · rcases List.mem_singleton.mp hcg with rfl
            decide
    · intro c hc
      rcases List.mem_cons.mp hc with rfl | hct
      · rw [h4]; decide
      · rw [h5] at hct
        rcases List.mem_singleton.mp hct with rfl
        decide
    · exact parseScalar_chars h

theorem parseEntryYaml_chars {line : List Char} {kv : List Char × Value}
    (h : parseEntryYaml line = some kv) : ∀ c ∈ line, surfChar c = true := by
  simp only [parseEntryYaml] at h
  split_ifs at h with h1
  split at h
  case _ tok heq =>
    intro c hc
    rw [← List.takeWhile_append_dropWhile isKeyChar line] at hc
    rcases List.mem_append.mp hc with hck | hcr
    · exact isKeyChar_surfChar (all_takeWhile line c hck)
    · rw [heq] at hcr
      rcases List.mem_cons.mp hcr with rfl | hcr2
      · decide
      · rcases List.mem_cons.mp hcr2 with rfl | hcr3
        · decide
        · cases hpt : parseTok true tok with
          | none => rw [hpt] at h; exact absurd h (by simp)
          | some w => exact parseTok_chars hpt c hcr3
  case _ => exact absurd h (by simp)

theorem yamlLoadLines_entry_chars {ls : List (List Char)} {v : Value}
    (h : yamlLoadLines ls = .ok v) :
    ∀ l ∈ ls, ∀ c ∈ l, surfChar c = true := by
  match ls with
  | [] => exact absurd h (by simp [yamlLoadLines])
  | [l] =>
    simp only [yamlLoadLines] at h
    intro l' hl' c hc
    rcases List.mem_singleton.mp hl' with rfl
    cases hpt : parseTok true l' with
    | some w => exact parseTok_chars hpt c hc
    | none =>
      rw [hpt] at h
      cases hpe : parseEntryYaml l' with
      | none => rw [hpe] at h; exact absurd h (by simp)
      | some kv => exact parseEntryYaml_chars hpe c hc
  | l1 :: l2 :: ls' =>
    simp only [yamlLoadLines] at h
    intro l' hl' c hc
    cases hme : mapOpt parseEntryYaml (l1 :: l2 :: ls') with
    | none => rw [hme] at h; exact absurd h (by simp)
    | some kvs =>
      obtain ⟨kv, hkv⟩ := mapOpt_elem_some hme l' hl'
      exact parseEntryYaml_chars hkv c hc

theorem yamlLoad_chars {content : List Char} {v : Value}
    (h : yamlLoad content = .ok v) :
    ∀ c ∈ content, surfChar c = true ∨ c = '\n' := by
  unfold yamlLoad at h
  split_ifs at h with h1
  · intro c hc
    rw [h1] at hc
    simp at hc
  · intro c hc
    rcases splitChar_covers '\n' hc with rfl | ⟨p, hp, hcp⟩
    · exact Or.inr rfl
    · exact Or.inl (yamlLoadLines_entry_chars h p hp c hcp)

/-- Whether the raw text contains a YAML tag-introducing character. -/
def hasTagChar (s : List Char) : Bool := s.any (fun c => c = '!')

theorem yamlLoad_tag_error {content : List Char} (h : hasTagChar content = true) :
    yamlLoad content = .error () := by
  obtain ⟨c, hc, hce⟩ := List.any_eq_true.mp h
  simp only [decide_eq_true_eq] at hce
  subst hce
  cases hl : yamlLoad content with
  | ok v =>
    rcases yamlLoad_chars hl _ hc with hs | hn
    · exact absurd hs (by decide)
    · exact absurd hn (by decide)
  | error e => rfl

/-! ### The Python layer: shallow embedding of src/main.py -/

/-- The state of a path in the filesystem: missing, unreadable (permission
denied on open), or readable with the given content. -/
inductive FileState where
  | absent
  | denied
  | readable (content : List Char)

/-- Message classes carried by the ValueError exceptions raised in
load_file and write_file. -/
inductive Msg where
  | parseError (fmt : List Char)
  | unsupportedFmt (fmt : List Char)
  | encodeError (fmt : List Char)
deriving DecidableEq

/-- The Python exception classes crossing function boundaries in main.py. -/
inductive PyErr where
  | fileNotFound
  | permissionError
  | valueError (m : Msg)
  | otherError
deriving DecidableEq

/-- Log levels of the logging module as configured in main.py. -/
inductive LogLevel where
  | info
  | warning
  | errorL
deriving DecidableEq

/-- The log messages emitted by main.py, by class. -/
inductive LogMsg where
  | notFoundMsg (path : List Char)
  | valueMsg (m : Msg)
  | unexpectedMsg
  | sameFormatMsg
  | successMsg
deriving DecidableEq

/-- One structured log line: level and message class. -/
abbrev Log := LogLevel × LogMsg

/-- The yaml format tag. -/
def yamlTag : List Char := ['y', 'a', 'm', 'l']

/-- The json format tag. -/
def jsonTag : List Char := ['j', 's', 'o', 'n']

/-- The toml format tag. -/
def tomlTag : List Char := ['t', 'o', 'm', 'l']

/-- The `choices` list of the two required format CLI flags
(setup_argparse, src/main.py lines 30-31). -/
def formatChoices : List (List Char) := [yamlTag, jsonTag, tomlTag]

/-- A format tag accepted by the CLI choices validation. -/
abbrev validFormat (t : List Char) : Prop := t ∈ formatChoices

/-- The format dispatch inside load_file's with-open block (src/main.py
lines 51-67): parse the content according to the declared format, wrapping
parser failures in a ValueError carrying a parse-error message and an
unknown tag in a ValueError with an unsupported-format message; the
ValueError is logged by load_file's handler before being re-raised. -/
def parse_content (content file_format : List Char) :
    Except PyErr Value × List Log :=
  if file_format = yamlTag then
    match yamlLoad content with
    | .ok v => (.ok v, [])
    | .error _ => (.error (.valueError (.parseError yamlTag)),
        [(.errorL, .valueMsg (.parseError yamlTag))])
  else if file_format = jsonTag then
    match jsonLoad content with
    | .ok v => (.ok v, [])
    | .error _ => (.error (.valueError (.parseError jsonTag)),
        [(.errorL, .valueMsg (.parseError jsonTag))])
  else if file_format = tomlTag then
    match tomlLoad content with
    | .ok v => (.ok v, [])
    | .error _ => (.error (.valueError (.parseError tomlTag)),
        [(.errorL, .valueMsg (.parseError tomlTag))])
  else (.error (.valueError (.unsupportedFmt file_format)),
      [(.errorL, .valueMsg (.unsupportedFmt file_format))])

/-- Shallow embedding of load_file (src/main.py lines 34-74): open the
file and parse it with `parse_content`; a missing file raises a logged
FileNotFoundError, while a PermissionError from open propagates unlogged.
Returns the raised exception or the parsed value, with the log lines. -/
def load_file (fs : List Char → FileState) (file_path file_format : List Char) :
    Except PyErr Value × List Log :=
  match fs file_path with
  | .absent => (.error .fileNotFound, [(.errorL, .notFoundMsg file_path)])
  | .denied => (.error .permissionError, [])
  | .readable content => parse_content content file_format

/-- Shallow embedding of write_file (src/main.py lines 77-113): open the
output path for writing (a failing open raises an OSError, logged as
unexpected and re-raised), then dispatch on the format tag; the yaml and
json serializers succeed on every Value, the toml serializer raises
TomlEncodeError on unrepresentable values, caught and re-raised as a
logged ValueError with an encode-error message; an unknown tag raises a
logged ValueError with an unsupported-format message.  Returns the raised
exception or the written content, with the log lines. -/
def write_file (outWritable : Bool) (data : Value) (file_format : List Char) :
    Except PyErr (List Char) × List Log :=
  if outWritable = false then (.error .otherError, [(.errorL, .unexpectedMsg)])
  else if file_format = yamlTag then (.ok (yamlDumpDoc data), [])
  else if file_format = jsonTag then (.ok (jsonDumpDoc data), [])
  else if file_format = tomlTag then
    match tomlDumpDoc data with
    | .ok s => (.ok s, [])
    | .error _ => (.error (.valueError (.encodeError tomlTag)),
        [(.errorL, .valueMsg (.encodeError tomlTag))])
  else (.error (.valueError (.unsupportedFmt file_format)),
      [(.errorL, .valueMsg (.unsupportedFmt file_format))])

/-- The parsed CLI arguments of main.py. -/
structure Args where
  input_file : List Char
  output_file : List Char
  input_format : List Char
  output_format : List Char

/-- The process environment: the filesystem, and whether the output path
can be opened for writing. -/
structure Env where
  fs : List Char → FileState
  outWritable : Bool

/-- The observable outcome of one run of main: the process exit code, the
emitted log lines in order, and the content of the output file (`none` if
it was never opened, `some []` if it was opened/truncated and the encode
then failed). -/
structure RunResult where
  exitCode : Nat
  logs : List Log
  written : Option (List Char)

/-- The advisory emitted by main before conversion (src/main.py lines
122-124): a WARNING when the input and output format tags are equal. -/
def warnLogs (args : Args) : List Log :=
  if args.input_format = args.output_format then [(.warning, .sameFormatMsg)] else []

/-- The write phase of main and its exception handling (src/main.py lines
130-141), given the advisory and load logs already emitted: success logs
an INFO line and exits 0; a ValueError (already logged by write_file)
exits 1 leaving the opened output file empty; any other exception is
logged as unexpected and exits 1. -/
def handle_write (warn ls0 : List Log) (w : Except PyErr (List Char) × List Log) :
    RunResult :=
  match w with
  | (.ok s, ls) => ⟨0, warn ++ ls0 ++ ls ++ [(.info, .successMsg)], some s⟩
  | (.error (.valueError _), ls) => ⟨1, warn ++ ls0 ++ ls, some []⟩
  | (.error .fileNotFound, ls) => ⟨1, warn ++ ls0 ++ ls, none⟩
  | (.error .permissionError, ls) =>
    ⟨1, warn ++ ls0 ++ ls ++ [(.errorL, .unexpectedMsg)], none⟩
  | (.error .otherError, ls) =>
    ⟨1, warn ++ ls0 ++ ls ++ [(.errorL, .unexpectedMsg)], none⟩

/-- Shallow embedding of main (src/main.py lines 115-141): warn when the
two format tags are equal, load the input, write the output, log success
and exit 0; a caught FileNotFoundError or ValueError exits 1, and any
other exception is logged as unexpected and exits 1. -/
def main (args : Args) (env : Env) : RunResult :=
  match load_file env.fs args.input_file args.input_format with
  | (.error .fileNotFound, ls) => ⟨1, warnLogs args ++ ls, none⟩
  | (.error .permissionError, ls) =>
    ⟨1, warnLogs args ++ ls ++ [(.errorL, .unexpectedMsg)], none⟩
  | (.error (.valueError _), ls) => ⟨1, warnLogs args ++ ls, none⟩
  | (.error .otherError, ls) =>
    ⟨1, warnLogs args ++ ls ++ [(.errorL, .unexpectedMsg)], none⟩
  | (.ok v, ls0) =>
    handle_write (warnLogs args) ls0 (write_file env.outWritable v args.output_format)

/-! ### Shape lemmas for main -/

theorem main_load_ok {args : Args} {env : Env} {v : Value} {ls0 : List Log}
    (hl : load_file env.fs args.input_file args.input_format = (.ok v, ls0)) :
    main args env =
      handle_write (warnLogs args) ls0
        (write_file env.outWritable v args.output_format) := by
  unfold main
  rw [hl]

theorem main_load_notFound {args : Args} {env : Env} {ls : List Log}
    (hl : load_file env.fs args.input_file args.input_format = (.error .fileNotFound, ls)) :
    main args env = ⟨1, warnLogs args ++ ls, none⟩ := by
  unfold main
  rw [hl]

theorem main_load_perm {args : Args} {env : Env} {ls : List Log}
    (hl : load_file env.fs args.input_file args.input_format
      = (.error .permissionError, ls)) :
    main args env = ⟨1, warnLogs args ++ ls ++ [(.errorL, .unexpectedMsg)], none⟩ := by
  unfold main
  rw [hl]

theorem main_load_valueError {args : Args} {env : Env} {m : Msg} {ls : List Log}
    (hl : load_file env.fs args.input_file args.input_format
      = (.error (.valueError m), ls)) :
    main args env = ⟨1, warnLogs args ++ ls, none⟩ := by
  unfold main
  rw [hl]

theorem main_load_other {args : Args} {env : Env} {ls : List Log}
    (hl : load_file env.fs args.input_file args.input_format = (.error .otherError, ls)) :
    main args env = ⟨1, warnLogs args ++ ls ++ [(.errorL, .unexpectedMsg)], none⟩ := by
  unfold main
  rw [hl]

/-! ### Structural lemmas about load_file and write_file -/

theorem load_file_absent {fs : List Char → FileState} {p : List Char} (f : List Char)
    (h : fs p = .absent) :
    load_file fs p f = (.error .fileNotFound, [(.errorL, .notFoundMsg p)]) := by
  unfold load_file
  rw [h]

theorem load_file_denied {fs : List Char → FileState} {p : List Char} (f : List Char)
    (h : fs p = .denied) :
    load_file fs p f = (.error .permissionError, []) := by
  unfold load_file
  rw [h]

theorem load_file_readable (fs : List Char → FileState) (p c f : List Char)
    (hr : fs p = .readable c) :
    load_file fs p f = parse_content c f := by
  unfold load_file
  rw [hr]

theorem parse_content_yaml_ok {c : List Char} {v : Value} (hy : yamlLoad c = .ok v) :
    parse_content c yamlTag = (.ok v, []) := by
  unfold parse_content
  rw [if_pos rfl, hy]

theorem parse_content_yaml_err {c : List Char} (hy : yamlLoad c = .error ()) :
    parse_content c yamlTag = (.error (.valueError (.parseError yamlTag)),
      [(.errorL, .valueMsg (.parseError yamlTag))]) := by
  unfold parse_content
  rw [if_pos rfl, hy]

theorem parse_content_json_ok {c : List Char} {v : Value} (hj : jsonLoad c = .ok v) :
    parse_content c jsonTag = (.ok v, []) := by
  unfold parse_content
  rw [if_neg (by decide), if_pos rfl, hj]

theorem parse_content_toml_ok {c : List Char} {v : Value} (ht : tomlLoad c = .ok v) :
    parse_content c tomlTag = (.ok v, []) := by
  unfold parse_content
  rw [if_neg (by decide), if_neg (by decide), if_pos rfl, ht]

theorem load_file_ok_readable {fs : List Char → FileState} {p f : List Char}
    {v : Value} {ls : List Log} (h : load_file fs p f = (.ok v, ls)) :
    ∃ c, fs p = .readable c ∧ parse_content c f = (.ok v, ls) := by
  unfold load_file at h
  cases hfs : fs p with
  | absent => rw [hfs] at h; simp at h
  | denied => rw [hfs] at h; simp at h
  | readable c =>
    rw [hfs] at h
    exact ⟨c, rfl, h⟩

theorem parse_content_yaml_ok_inv {c : List Char} {v : Value} {ls : List Log}
    (h : parse_content c yamlTag = (.ok v, ls)) : yamlLoad c = .ok v := by
  unfold parse_content at h
  rw [if_pos rfl] at h
  cases hy : yamlLoad c with
  | ok w =>
    rw [hy] at h
    simp only [Prod.mk.injEq, Except.ok.injEq] at h
    rw [h.1]
  | error e => rw [hy] at h; simp at h

theorem parse_content_json_ok_inv {c : List Char} {v : Value} {ls : List Log}
    (h : parse_content c jsonTag = (.ok v, ls)) : jsonLoad c = .ok v := by
  unfold parse_content at h
  rw [if_neg (by decide), if_pos rfl] at h
  cases hy : jsonLoad c with
  | ok w =>
    rw [hy] at h
    simp only [Prod.mk.injEq, Except.ok.injEq] at h
    rw [h.1]
  | error e => rw [hy] at h; simp at h

theorem parse_content_toml_ok_inv {c : List Char} {v : Value} {ls : List Log}
    (h : parse_content c tomlTag = (.ok v, ls)) : tomlLoad c = .ok v := by
  unfold parse_content at h
  rw [if_neg (by decide), if_neg (by decide), if_pos rfl] at h
  cases hy : tomlLoad c with
  | ok w =>
    rw [hy] at h
    simp only [Prod.mk.injEq, Except.ok.injEq] at h
    rw [h.1]
  | error e => rw [hy] at h; simp at h

theorem parse_content_valueError_logged {c f : List Char} {m : Msg} {ls : List Log}
    (h : parse_content c f = (.error (.valueError m), ls)) :
    (.errorL, .valueMsg m) ∈ ls := by
  unfold parse_content at h
  split_ifs at h
  · cases hy : yamlLoad c with
    | ok w => rw [hy] at h; simp at h
    | error e =>
      rw [hy] at h
      simp only [Prod.mk.injEq, Except.error.injEq, PyErr.valueError.injEq] at h
      rw [← h.2, ← h.1]
      exact List.mem_singleton.mpr rfl
  · cases hy : jsonLoad c with
    | ok w => rw [hy] at h; simp at h
    | error e =>
      rw [hy] at h
      simp only [Prod.mk.injEq, Except.error.injEq, PyErr.valueError.injEq] at h
      rw [← h.2, ← h.1]
      exact List.mem_singleton.mpr rfl
  · cases hy : tomlLoad c with
    | ok w => rw [hy] at h; simp at h
    | error e =>
      rw [hy] at h
      simp only [Prod.mk.injEq, Except.error.injEq, PyErr.valueError.injEq] at h
      rw [← h.2, ← h.1]
      exact List.mem_singleton.mpr rfl
  · simp only [Prod.mk.injEq, Except.error.injEq, PyErr.valueError.injEq] at h
    rw [← h.2, ← h.1]
    exact List.mem_singleton.mpr rfl

theorem load_file_valueError_logged {fs : List Char → FileState} {p f : List Char}
    {m : Msg} {ls : List Log}
    (h : load_file fs p f = (.error (.valueError m), ls)) :
    (.errorL, .valueMsg m) ∈ ls := by
  unfold load_file at h
  cases hfs : fs p with
  | absent => rw [hfs] at h; simp at h
  | denied => rw [hfs] at h; simp at h
  | readable c =>
    rw [hfs] at h
    exact parse_content_valueError_logged h

theorem write_file_notWritable (v : Value) (f : List Char) :
    write_file false v f = (.error .otherError, [(.errorL, .unexpectedMsg)]) := rfl

theorem write_file_yaml (v : Value) :
    write_file true v yamlTag = (.ok (yamlDumpDoc v), []) := rfl

theorem write_file_json (v : Value) :
    write_file true v jsonTag = (.ok (jsonDumpDoc v), []) := rfl

theorem write_file_toml_ok {v : Value} {s : List Char} (h : tomlDumpDoc v = .ok s) :
    write_file true v tomlTag = (.ok s, []) := by
  show (match tomlDumpDoc v with
    | .ok s => ((.ok s : Except PyErr (List Char)), ([] : List Log))
    | .error _ => (.error (.valueError (.encodeError tomlTag)),
        [(.errorL, .valueMsg (.encodeError tomlTag))])) = _
  rw [h]

theorem write_file_toml_err {v : Value} (h : tomlDumpDoc v = .error ()) :
    write_file true v tomlTag = (.error (.valueError (.encodeError tomlTag)),
      [(.errorL, .valueMsg (.encodeError tomlTag))]) := by
  show (match tomlDumpDoc v with
    | .ok s => ((.ok s : Except PyErr (List Char)), ([] : List Log))
    | .error _ => (.error (.valueError (.encodeError tomlTag)),
        [(.errorL, .valueMsg (.encodeError tomlTag))])) = _
  rw [h]

theorem handle_write_ok (warn ls0 : List Log) (s : List Char) (ls : List Log) :
    handle_write warn ls0 (.ok s, ls)
      = ⟨0, warn ++ ls0 ++ ls ++ [(.info, .successMsg)], some s⟩ := rfl

theorem handle_write_valueError (warn ls0 : List Log) (m : Msg) (ls : List Log) :
    handle_write warn ls0 (.error (.valueError m), ls)
      = ⟨1, warn ++ ls0 ++ ls, some []⟩ := rfl

theorem handle_write_other (warn ls0 : List Log) (ls : List Log) :
    handle_write warn ls0 (.error .otherError, ls)
      = ⟨1, warn ++ ls0 ++ ls ++ [(.errorL, .unexpectedMsg)], none⟩ := rfl

/-! ## Claim theorems -/

/-- C1: for every invocation of main, the exit code is 0 or 1; if loading
and writing both succeed it is 0; a ValueError raised during loading (in
particular a declared-format parse failure) yields exit code 1 with the
corresponding error-class message among the logs; a missing input path
yields exit code 1 with a NotFound-class message among the logs; and exit
code 0 occurs only when both loading and writing succeeded, so every
other error also yields exit code 1. -/
theorem main_exit_codes (args : Args) (env : Env) :
    ((main args env).exitCode = 0 ∨ (main args env).exitCode = 1)
    ∧ (∀ v s, (load_file env.fs args.input_file args.input_format).1 = .ok v →
        (write_file env.outWritable v args.output_format).1 = .ok s →
        (main args env).exitCode = 0)
    ∧ (∀ m, (load_file env.fs args.input_file args.input_format).1
          = .error (.valueError m) →
        (main args env).exitCode = 1 ∧ (.errorL, .valueMsg m) ∈ (main args env).logs)
    ∧ (env.fs args.input_file = .absent →
        (main args env).exitCode = 1 ∧
        (.errorL, .notFoundMsg args.input_file) ∈ (main args env).logs)
    ∧ ((main args env).exitCode = 0 →
        ∃ v s, (load_file env.fs args.input_file args.input_format).1 = .ok v ∧
          (write_file env.outWritable v args.output_format).1 = .ok s) := by
  rcases hload : load_file env.fs args.input_file args.input_format with ⟨res, ls0⟩
  cases res with
  | ok v0 =>
    have hmain := main_load_ok hload
    have hconj3 : ∀ m, ((.ok v0, ls0) :
        Except PyErr Value × List Log).1 = .error (.valueError m) →
        (main args env).exitCode = 1 ∧ (.errorL, .valueMsg m) ∈ (main args env).logs := by
      intro m hm
      exact absurd hm (by simp)
    have hconj4 : env.fs args.input_file = .absent →
        (main args env).exitCode = 1 ∧
        (.errorL, .notFoundMsg args.input_file) ∈ (main args env).logs := by
      intro habs
      rw [load_file_absent args.input_format habs] at hload
      exact absurd hload (by simp)
    rcases hwrite : write_file env.outWritable v0 args.output_format with ⟨wres, ls1⟩
    cases wres with
    | ok s0 =>
      rw [hwrite, handle_write_ok] at hmain
      refine ⟨Or.inl (by rw [hmain]), ?_, hconj3, hconj4, ?_⟩
      · intro v s _ _
        rw [hmain]
      · intro _
        exact ⟨v0, s0, rfl, by rw [hwrite]⟩
    | error we =>
      have hexit1 : (main args env).exitCode = 1 := by
        cases we with
        | valueError m => rw [hwrite, handle_write_valueError] at hmain; rw [hmain]
        | fileNotFound => rw [hwrite] at hmain; rw [hmain]; rfl
        | permissionError => rw [hwrite] at hmain; rw [hmain]; rfl
        | otherError => rw [hwrite, handle_write_other] at hmain; rw [hmain]
      refine ⟨Or.inr hexit1, ?_, hconj3, hconj4, ?_⟩
      · intro v s hv hw
        have hvv : v0 = v := by simpa using hv
        subst hvv
        rw [hwrite] at hw
        exact absurd hw (by simp)
      · intro h0
        exact absurd (hexit1.symm.trans h0) (by decide)
  | error e =>
    have hconj2 : ∀ v s, ((Except.error e, ls0) :
        Except PyErr Value × List Log).1 = .ok v →
        (write_file env.outWritable v args.output_format).1 = .ok s →
        (main args env).exitCode = 0 := by
      intro v s hv _
      exact absurd hv (by simp)
    cases e with
    | fileNotFound =>
      have hmain := main_load_notFound hload
      refine ⟨Or.inr (by rw [hmain]), hconj2, ?_, ?_, ?_⟩
      · intro m hm
        exact absurd hm (by simp)
      · intro habs
        have heq := load_file_absent args.input_format habs
        rw [hload] at heq
        have hls : ls0 = [(.errorL, .notFoundMsg args.input_file)] := by
          simpa using heq
        refine ⟨by rw [hmain], ?_⟩
        rw [hmain]
        show _ ∈ warnLogs args ++ ls0
        rw [hls]
        exact List.mem_append.mpr (Or.inr (List.mem_singleton.mpr rfl))
      · intro h0
        rw [hmain] at h0
        exact absurd h0 (by simp)
    | permissionError =>
      have hmain := main_load_perm hload
      refine ⟨Or.inr (by rw [hmain]), hconj2, ?_, ?_, ?_⟩
      · intro m hm
        exact absurd hm (by simp)
      · intro habs
        have heq := load_file_absent args.input_format habs
        rw [hload] at heq
        exact absurd heq (by simp)
      · intro h0
        rw [hmain] at h0
        exact absurd h0 (by simp)
    | valueError m0 =>
      have hmain := main_load_valueError hload
      refine ⟨Or.inr (by rw [hmain]), hconj2, ?_, ?_, ?_⟩
      · intro m hm
        have hmm : m0 = m := by simpa using hm
        subst hmm
        refine ⟨by rw [hmain], ?_⟩
        rw [hmain]
        show _ ∈ warnLogs args ++ ls0
        exact List.mem_append.mpr (Or.inr (load_file_valueError_logged hload))
      · intro habs
        have heq := load_file_absent args.input_format habs
        rw [hload] at heq
        exact absurd heq (by simp)
      · intro h0
        rw [hmain] at h0
        exact absurd h0 (by simp)
    | otherError =>
      have hmain := main_load_other hload
      refine ⟨Or.inr (by rw [hmain]), hconj2, ?_, ?_, ?_⟩
      · intro m hm
        exact absurd hm (by simp)
      · intro habs
        have heq := load_file_absent args.input_format habs
        rw [hload] at heq
        exact absurd heq (by simp)
      · intro h0
        rw [hmain] at h0
        exact absurd h0 (by simp)

/-- Witness for C1: a run on a missing input file exits 1 and logs a
NotFound-class message. -/
theorem main_exit_codes_witness :
    (main ⟨['i'], ['o'], yamlTag, jsonTag⟩ ⟨fun _ => .absent, true⟩).exitCode = 1 ∧
    (.errorL, .notFoundMsg ['i']) ∈
      (main ⟨['i'], ['o'], yamlTag, jsonTag⟩ ⟨fun _ => .absent, true⟩).logs :=
  (main_exit_codes ⟨['i'], ['o'], yamlTag, jsonTag⟩ ⟨fun _ => .absent, true⟩).2.2.2.1 rfl

/-- A Generic Value whose top level is a bare scalar or a list (not a
mapping). -/
def isBareScalarOrList (v : Value) : Bool :=
  match v with
  | .vmap _ => false
  | _ => true

/-- C2: writing a top-level scalar or list as TOML fails with an
EncodeError-class ValueError which is logged, while the same value
succeeds as YAML or JSON. -/
theorem toml_shape_rejection (v : Value) (h : isBareScalarOrList v = true) :
    (write_file true v tomlTag).1 = .error (.valueError (.encodeError tomlTag)) ∧
    (.errorL, .valueMsg (.encodeError tomlTag)) ∈ (write_file true v tomlTag).2 ∧
    (write_file true v yamlTag).1 = .ok (yamlDumpDoc v) ∧
    (write_file true v jsonTag).1 = .ok (jsonDumpDoc v) := by
  have hd : tomlDumpDoc v = .error () := by
    cases v with
    | vmap kvs => simp [isBareScalarOrList] at h
    | vnull => rfl
    | vbool b => rfl
    | vint n => rfl
    | vstr s => rfl
    | vseq xs => rfl
  rw [write_file_toml_err hd]
  exact ⟨rfl, List.mem_singleton.mpr rfl, by rw [write_file_yaml], by rw [write_file_json]⟩

/-- Witness for C2 at the bare scalar 5. -/
theorem toml_shape_rejection_witness :
    (write_file true (.vint 5) tomlTag).1
      = .error (.valueError (.encodeError tomlTag)) ∧
    (.errorL, .valueMsg (.encodeError tomlTag)) ∈ (write_file true (.vint 5) tomlTag).2 ∧
    (write_file true (.vint 5) yamlTag).1 = .ok (yamlDumpDoc (.vint 5)) ∧
    (write_file true (.vint 5) jsonTag).1 = .ok (jsonDumpDoc (.vint 5)) :=
  toml_shape_rejection (.vint 5) rfl

/-- C4: every value tree returned by the loader is a valid writer input
for every target format: write_file either serializes it or fails with the
declared EncodeError-class write failure; for TOML that failure happens
exactly when the tree has a non-mapping root or contains a null — it never
silently coerces the value. -/
theorem writer_totality (v : Value) :
    (∀ fmt, validFormat fmt →
      (∃ s, (write_file true v fmt).1 = .ok s) ∨
      (write_file true v fmt).1 = .error (.valueError (.encodeError fmt)))
    ∧ ((write_file true v tomlTag).1 = .error (.valueError (.encodeError tomlTag)) ↔
        isBareScalarOrList v = true ∨ hasNullVal v = true) := by
  have htoml : (∃ s, (write_file true v tomlTag).1 = .ok s) ∨
      (write_file true v tomlTag).1 = .error (.valueError (.encodeError tomlTag)) := by
    cases hd : tomlDumpDoc v with
    | ok s => exact Or.inl ⟨s, by rw [write_file_toml_ok hd]⟩
    | error e =>
      cases e
      exact Or.inr (by rw [write_file_toml_err hd])
  constructor
  · intro fmt hf
    simp only [validFormat, formatChoices, List.mem_cons, List.mem_singleton] at hf
    rcases hf with rfl | rfl | rfl | hf
    · exact Or.inl ⟨_, by rw [write_file_yaml]⟩
    · exact Or.inl ⟨_, by rw [write_file_json]⟩
    · exact htoml
    · simp at hf
  · constructor
    · intro herr
      cases v with
      | vmap kvs =>
        by_cases hn : hasNullVal (Value.vmap kvs) = true
        · exact Or.inr hn
        · have hd : tomlDumpDoc (Value.vmap kvs) = .ok (joinChar '\n'
              (kvs.map (fun kv => kv.1 ++ ' ' :: '=' :: ' ' :: printTok kv.2))) := by
            show (if hasNullVal (Value.vmap kvs) = true then Except.error ()
              else Except.ok (joinChar '\n'
                (kvs.map (fun kv => kv.1 ++ ' ' :: '=' :: ' ' :: printTok kv.2)))) = _
            rw [if_neg hn]
          rw [write_file_toml_ok hd] at herr
          exact absurd herr (by simp)
      | vnull => exact Or.inl rfl
      | vbool b => exact Or.inl rfl
      | vint n => exact Or.inl rfl
      | vstr s => exact Or.inl rfl
      | vseq xs => exact Or.inl rfl
    · intro hor
      have hd : tomlDumpDoc v = .error () := by
        cases v with
        | vmap kvs =>
          rcases hor with hb | hnull
          · simp [isBareScalarOrList] at hb
          · show (if hasNullVal (Value.vmap kvs) = true then Except.error ()
              else Except.ok (joinChar '\n'
                (kvs.map (fun kv => kv.1 ++ ' ' :: '=' :: ' ' :: printTok kv.2)))) = _
            rw [if_pos hnull]
        | vnull => rfl
        | vbool b => rfl
        | vint n => rfl
        | vstr s => rfl
        | vseq xs => rfl
      rw [write_file_toml_err hd]

/-- Witness for C4: the yaml writer serializes the empty mapping, and the
toml writer rejects null exactly as the iff states. -/
theorem writer_totality_witness :
    ((∃ s, (write_file true (.vmap []) yamlTag).1 = .ok s) ∨
      (write_file true (.vmap []) yamlTag).1
        = .error (.valueError (.encodeError yamlTag))) ∧
    (write_file true Value.vnull tomlTag).1
      = .error (.valueError (.encodeError tomlTag)) :=
  ⟨(writer_totality (.vmap [])).1 yamlTag (by decide),
    (writer_totality Value.vnull).2.mpr (Or.inl rfl)⟩

/-- C6 counterexample: on an existing but unreadable input file, load_file
raises PermissionError — not the NotFound class — and the run logs an
unexpected-error message, not a NotFound-class one. -/
theorem unreadable_counterexample :
    (load_file (fun _ => FileState.denied) ['c'] yamlTag).1 = .error .permissionError ∧
    (load_file (fun _ => FileState.denied) ['c'] yamlTag).1 ≠ .error .fileNotFound ∧
    (.errorL, .notFoundMsg ['c']) ∉
      (main ⟨['c'], ['o'], yamlTag, jsonTag⟩ ⟨fun _ => .denied, true⟩).logs ∧
    (main ⟨['c'], ['o'], yamlTag, jsonTag⟩ ⟨fun _ => .denied, true⟩).exitCode = 1 := by
  refine ⟨rfl, ?_, ?_, rfl⟩
  · intro h
    exact absurd (Except.error.inj h) (by decide)
  · intro h
    have h2 : ((.errorL, .notFoundMsg ['c']) : Log) ∈
        ([(.errorL, .unexpectedMsg)] : List Log) := h
    rcases List.mem_singleton.mp h2 with heq
    exact absurd heq (by decide)

/-- C6 amended: an existing but unreadable input path fails the run with
exit code 1, but through the unexpected-error class (PermissionError falls
into the generic exception handler), not the NotFound class. -/
theorem unreadable_unexpected_error (args : Args) (env : Env)
    (h : env.fs args.input_file = .denied) :
    (load_file env.fs args.input_file args.input_format).1 = .error .permissionError ∧
    (main args env).exitCode = 1 ∧
    (.errorL, .unexpectedMsg) ∈ (main args env).logs ∧
    ∀ p, (.errorL, .notFoundMsg p) ∉ (main args env).logs := by
  have hload := load_file_denied args.input_format h
  have hmain := main_load_perm hload
  refine ⟨by rw [hload], by rw [hmain], ?_, ?_⟩
  · rw [hmain]
    show _ ∈ warnLogs args ++ [] ++ [(.errorL, .unexpectedMsg)]
    simp
  · intro p hp
    rw [hmain] at hp
    have hp2 : ((.errorL, .notFoundMsg p) : Log) ∈
        warnLogs args ++ [] ++ [(.errorL, .unexpectedMsg)] := hp
    rcases List.mem_append.mp hp2 with hp3 | hp3
    · rcases List.mem_append.mp hp3 with hp4 | hp4
      · unfold warnLogs at hp4
        split_ifs at hp4
        · rcases List.mem_singleton.mp hp4 with heq
          exact absurd heq (by simp)
        · simp at hp4
      · simp at hp4
    · rcases List.mem_singleton.mp hp3 with heq
      exact absurd heq (by simp)

/-- Witness for the C6 amended theorem on a concrete denied filesystem. -/
theorem unreadable_unexpected_error_witness :
    (load_file (fun _ => FileState.denied) ['a'] tomlTag).1
      = .error .permissionError ∧
    (main ⟨['a'], ['b'], tomlTag, tomlTag⟩ ⟨fun _ => .denied, false⟩).exitCode = 1 ∧
    (.errorL, .unexpectedMsg) ∈
      (main ⟨['a'], ['b'], tomlTag, tomlTag⟩ ⟨fun _ => .denied, false⟩).logs ∧
    ∀ p, (.errorL, .notFoundMsg p) ∉
      (main ⟨['a'], ['b'], tomlTag, tomlTag⟩ ⟨fun _ => .denied, false⟩).logs :=
  unreadable_unexpected_error ⟨['a'], ['b'], tomlTag, tomlTag⟩ ⟨fun _ => .denied, false⟩ rfl

/-- C7: a format tag outside the closed set makes load_file (on a readable
file) and write_file fail with the unsupported-format ValueError; and a
tag accepted by the CLI choices validation never produces that error, so
the defensive branch is unreachable for validated tags. -/
theorem unsupported_format_defensive (fmt : List Char) :
    (¬ validFormat fmt →
      (∀ fs p c, fs p = .readable c →
        (load_file fs p fmt).1 = .error (.valueError (.unsupportedFmt fmt))) ∧
      (∀ v, (write_file true v fmt).1 = .error (.valueError (.unsupportedFmt fmt))))
    ∧ (validFormat fmt →
      (∀ fs p m, (load_file fs p fmt).1 ≠ .error (.valueError (.unsupportedFmt m))) ∧
      (∀ w v m, (write_file w v fmt).1 ≠ .error (.valueError (.unsupportedFmt m)))) := by
  constructor
  · intro hnv
    have hne : fmt ≠ yamlTag ∧ fmt ≠ jsonTag ∧ fmt ≠ tomlTag := by
      simp only [validFormat, formatChoices, List.mem_cons, List.mem_singleton] at hnv
      push_neg at hnv
      exact ⟨hnv.1, hnv.2.1, by simpa using hnv.2.2⟩
    constructor
    · intro fs p c hr
      rw [load_file_readable _ _ _ fmt hr]
      unfold parse_content
      rw [if_neg hne.1, if_neg hne.2.1, if_neg hne.2.2]
    · intro v
      unfold write_file
      rw [if_neg (by decide), if_neg hne.1, if_neg hne.2.1, if_neg hne.2.2]
  · intro hv
    simp only [validFormat, formatChoices, List.mem_cons, List.mem_singleton] at hv
    have hv3 : fmt = yamlTag ∨ fmt = jsonTag ∨ fmt = tomlTag := by
      rcases hv with h | h | h | h
      · exact Or.inl h
      · exact Or.inr (Or.inl h)
      · exact Or.inr (Or.inr h)
      · simp at h
    constructor
    · intro fs p m hbad
      rcases hload : load_file fs p fmt with ⟨res, ls⟩
      rw [hload] at hbad
      have hres : res = .error (.valueError (.unsupportedFmt m)) := hbad
      subst hres
      cases hfs : fs p with
      | absent =>
        rw [load_file_absent fmt hfs] at hload
        simp at hload
      | denied =>
        rw [load_file_denied fmt hfs] at hload
        simp at hload
      | readable c =>
        have hpc : parse_content c fmt
            = (.error (.valueError (.unsupportedFmt m)), ls) :=
          (load_file_readable _ _ _ fmt hfs).symm.trans hload
        unfold parse_content at hpc
        rcases hv3 with rfl | rfl | rfl
        · rw [if_pos rfl] at hpc
          cases hy : yamlLoad c with
          | ok w => rw [hy] at hpc; simp at hpc
          | error e => rw [hy] at hpc; simp at hpc
        · rw [if_neg (by decide), if_pos rfl] at hpc
          cases hy : jsonLoad c with
          | ok w => rw [hy] at hpc; simp at hpc
          | error e => rw [hy] at hpc; simp at hpc
        · rw [if_neg (by decide), if_neg (by decide), if_pos rfl] at hpc
          cases hy : tomlLoad c with
          | ok w => rw [hy] at hpc; simp at hpc
          | error e => rw [hy] at hpc; simp at hpc
    · intro w v m hbad
      cases w with
      | false => exact absurd (Except.error.inj hbad) (by simp)
      | true =>
        rcases hv3 with rfl | rfl | rfl
        · rw [write_file_yaml] at hbad
          simp at hbad
        · rw [write_file_json] at hbad
          simp at hbad
        · cases hd : tomlDumpDoc v with
          | ok s =>
            rw [write_file_toml_ok hd] at hbad
            simp at hbad
          | error e =>
            cases e
            rw [write_file_toml_err hd] at hbad
            simp only [Except.error.injEq, PyErr.valueError.injEq] at hbad
            exact absurd hbad (by simp [Msg.encodeError, Msg.unsupportedFmt])

/-- Witness for C7 at the invalid tag "xml" and the valid tag "yaml". -/
theorem unsupported_format_defensive_witness :
    (load_file (fun _ => .readable []) ['p'] ['x', 'm', 'l']).1
      = .error (.valueError (.unsupportedFmt ['x', 'm', 'l'])) ∧
    (write_file true Value.vnull ['x', 'm', 'l']).1
      = .error (.valueError (.unsupportedFmt ['x', 'm', 'l'])) ∧
    ∀ m, (load_file (fun _ => .readable []) ['p'] yamlTag).1
      ≠ .error (.valueError (.unsupportedFmt m)) :=
  ⟨((unsupported_format_defensive ['x', 'm', 'l']).1 (by decide)).1
      (fun _ => .readable []) ['p'] [] rfl,
    ((unsupported_format_defensive ['x', 'm', 'l']).1 (by decide)).2 Value.vnull,
    fun m => ((unsupported_format_defensive yamlTag).2 (by decide)).1
      (fun _ => .readable []) ['p'] m⟩

/-- C8: an empty input file with input format yaml loads as the null
value (not a mapping), writing that value as yaml or json succeeds, and
the whole run exits with code 0. -/
theorem empty_yaml_null_run (args : Args) (env : Env)
    (hf : env.fs args.input_file = .readable [])
    (hin : args.input_format = yamlTag)
    (hout : args.output_format = yamlTag ∨ args.output_format = jsonTag)
    (hw : env.outWritable = true) :
    (load_file env.fs args.input_file args.input_format).1 = .ok .vnull ∧
    (∀ kvs, Value.vnull ≠ Value.vmap kvs) ∧
    (∃ s, (write_file env.outWritable Value.vnull args.output_format).1 = .ok s) ∧
    (main args env).exitCode = 0 := by
  have hyl : yamlLoad [] = .ok .vnull := rfl
  have hload : load_file env.fs args.input_file args.input_format = (.ok .vnull, []) := by
    rw [hin, load_file_readable _ _ _ yamlTag hf, parse_content_yaml_ok hyl]
  have hwrite : ∃ s ls, write_file env.outWritable Value.vnull args.output_format
      = (.ok s, ls) := by
    rw [hw]
    rcases hout with h | h
    · rw [h]
      exact ⟨_, _, write_file_yaml _⟩
    · rw [h]
      exact ⟨_, _, write_file_json _⟩
  obtain ⟨s, ls, hwr⟩ := hwrite
  have hmain := main_load_ok hload
  rw [hwr, handle_write_ok] at hmain
  exact ⟨by rw [hload], fun kvs h => Value.noConfusion h, ⟨s, by rw [hwr]⟩,
    by rw [hmain]⟩

/-- Witness for C8 on a concrete empty yaml file converted to json. -/
theorem empty_yaml_null_run_witness :
    (load_file (fun _ => FileState.readable []) ['i'] yamlTag).1 = .ok .vnull ∧
    (∀ kvs, Value.vnull ≠ Value.vmap kvs) ∧
    (∃ s, (write_file true Value.vnull jsonTag).1 = .ok s) ∧
    (main ⟨['i'], ['o'], yamlTag, jsonTag⟩
      ⟨fun _ => FileState.readable [], true⟩).exitCode = 0 :=
  empty_yaml_null_run ⟨['i'], ['o'], yamlTag, jsonTag⟩
    ⟨fun _ => FileState.readable [], true⟩ rfl rfl (Or.inr rfl) rfl

/-- C9: a yaml input whose text uses a tag marker is rejected by the safe
loader: load_file raises a logged ValueError-class parse error and never
returns a value for it. -/
theorem yaml_safe_loader_tags (content : List Char) (h : hasTagChar content = true)
    (fs : List Char → FileState) (p : List Char) (hr : fs p = .readable content) :
    (load_file fs p yamlTag).1 = .error (.valueError (.parseError yamlTag)) ∧
    (.errorL, .valueMsg (.parseError yamlTag)) ∈ (load_file fs p yamlTag).2 ∧
    ∀ v, (load_file fs p yamlTag).1 ≠ .ok v := by
  have he := yamlLoad_tag_error h
  have hl : load_file fs p yamlTag = (.error (.valueError (.parseError yamlTag)),
      [(.errorL, .valueMsg (.parseError yamlTag))]) := by
    rw [load_file_readable _ _ _ yamlTag hr, parse_content_yaml_err he]
  refine ⟨by rw [hl], by rw [hl]; exact List.mem_singleton.mpr rfl, ?_⟩
  intro v hv
  rw [hl] at hv
  exact absurd hv (by simp)

/-- Witness for C9 at a document carrying a python-style tag. -/
theorem yaml_safe_loader_tags_witness :
    (load_file (fun _ => FileState.readable ['!', 'x']) ['p'] yamlTag).1
      = .error (.valueError (.parseError yamlTag)) ∧
    (.errorL, .valueMsg (.parseError yamlTag)) ∈
      (load_file (fun _ => FileState.readable ['!', 'x']) ['p'] yamlTag).2 ∧
    ∀ v, (load_file (fun _ => FileState.readable ['!', 'x']) ['p'] yamlTag).1
      ≠ .ok v :=
  yaml_safe_loader_tags ['!', 'x'] rfl (fun _ => FileState.readable ['!', 'x']) ['p'] rfl

theorem load_file_fs_congr {fs1 fs2 : List Char → FileState} {p : List Char}
    (f : List Char) (h : fs1 p = fs2 p) : load_file fs1 p f = load_file fs2 p f := by
  unfold load_file
  rw [h]

/-- C10: the conversion is deterministic — two runs with the same
arguments whose environments agree on the input file content and output
writability produce the same exit code, logs and written output. -/
theorem conversion_deterministic (args1 args2 : Args) (env1 env2 : Env)
    (hargs : args1 = args2)
    (hfs : env1.fs args1.input_file = env2.fs args2.input_file)
    (hw : env1.outWritable = env2.outWritable) :
    main args1 env1 = main args2 env2 := by
  subst hargs
  unfold main
  rw [load_file_fs_congr args1.input_format hfs, hw]

/-- Witness for C10: two environments differing only away from the input
path give identical runs. -/
theorem conversion_deterministic_witness :
    main ⟨['i'], ['o'], yamlTag, jsonTag⟩
      ⟨fun p => if p = ['i'] then .readable ['1'] else .absent, true⟩ =
    main ⟨['i'], ['o'], yamlTag, jsonTag⟩
      ⟨fun p => if p = ['i'] then .readable ['1'] else .denied, true⟩ :=
  conversion_deterministic _ _ _ _ rfl rfl rfl

theorem isScalarB_mono {v : Value} (h : isScalarB false v = true) :
    isScalarB true v = true := by
  cases v <;> simp_all [isScalarB]

theorem isEntryValB_mono {v : Value} (h : isEntryValB false v = true) :
    isEntryValB true v = true := by
  rcases isEntryValB_iff.mp h with hsc | ⟨xs, rfl, hxs⟩ | rfl
  · exact isEntryValB_iff.mpr (Or.inl (isScalarB_mono hsc))
  · refine isEntryValB_iff.mpr (Or.inr (Or.inl ⟨xs, rfl, ?_⟩))
    rw [List.all_eq_true] at hxs ⊢
    exact fun x hx => isScalarB_mono (hxs x hx)
  · exact isEntryValB_iff.mpr (Or.inr (Or.inr rfl))

theorem isFlatDocB_mono {v : Value} (h : isFlatDocB false v = true) :
    isFlatDocB true v = true := by
  cases v with
  | vmap kvs =>
    have hall := flatDoc_entries h
    show (kvs.all fun kv => isKeyB kv.1 && isEntryValB true kv.2) = true
    rw [List.all_eq_true]
    intro kv hkv
    obtain ⟨hk, hv⟩ := hall kv hkv
    simp [hk, isEntryValB_mono hv]
  | vnull => exact isEntryValB_mono h
  | vbool b => exact isEntryValB_mono h
  | vint n => exact isEntryValB_mono h
  | vstr s => exact isEntryValB_mono h
  | vseq xs => exact isEntryValB_mono h

theorem validFormat_cases {t : List Char} (h : validFormat t) :
    t = yamlTag ∨ t = jsonTag ∨ t = tomlTag := by
  simp only [validFormat, formatChoices, List.mem_cons, List.mem_singleton] at h
  rcases h with h | h | h | h
  · exact Or.inl h
  · exact Or.inr (Or.inl h)
  · exact Or.inr (Or.inr h)
  · simp at h

/-- Documents expressible in all three formats: a mapping of scalars and
sequences with bare keys and no format-specific extensions (in particular
no null, which TOML cannot express). -/
def Expressible3 (v : Value) : Bool :=
  (match v with
   | .vmap _ => true
   | _ => false) && isFlatDocB false v

/-- C3: for every document expressible in all three formats and for every
pair of valid source/target format tags, loading the document, writing
the loaded value in the target format, and re-loading the written output
yields a value structurally equal to the original. -/
theorem round_trip_all_formats (fmtA fmtB : List Char)
    (hA : validFormat fmtA) (hB : validFormat fmtB)
    (fs : List Char → FileState) (pIn pOut : List Char) (v : Value)
    (hex : Expressible3 v = true)
    (hload : (load_file fs pIn fmtA).1 = .ok v) :
    ∃ out, (write_file true v fmtB).1 = .ok out ∧
      (load_file (fun _ => .readable out) pOut fmtB).1 = .ok v := by
  simp only [Expressible3, Bool.and_eq_true] at hex
  obtain ⟨hmap, hflat⟩ := hex
  have hmapv : ∃ kvs, v = .vmap kvs := by
    cases v with
    | vmap kvs => exact ⟨kvs, rfl⟩
    | vnull => simp at hmap
    | vbool b => simp at hmap
    | vint n => simp at hmap
    | vstr s => simp at hmap
    | vseq xs => simp at hmap
  rcases validFormat_cases hB with rfl | rfl | rfl
  · refine ⟨yamlDumpDoc v, by rw [write_file_yaml], ?_⟩
    rw [load_file_readable (fun _ => FileState.readable (yamlDumpDoc v)) pOut _
        yamlTag rfl,
      parse_content_yaml_ok (yamlDumpDoc_load (isFlatDocB_mono hflat))]
  · refine ⟨jsonDumpDoc v, by rw [write_file_json], ?_⟩
    rw [load_file_readable (fun _ => FileState.readable (jsonDumpDoc v)) pOut _
        jsonTag rfl,
      parse_content_json_ok (jsonDumpDoc_load (isFlatDocB_mono hflat))]
  · obtain ⟨kvs, rfl⟩ := hmapv
    obtain ⟨hd, hr⟩ := tomlDumpDoc_load hflat
    refine ⟨_, by rw [write_file_toml_ok hd], ?_⟩
    rw [load_file_readable
        (fun _ => FileState.readable (joinChar '\n' (kvs.map tomlEntryLine))) pOut _
        tomlTag rfl,
      parse_content_toml_ok hr]

/-- Witness for C3: the spec's example mapping, loaded from json and
re-serialized as yaml. -/
theorem round_trip_all_formats_witness :
    Expressible3 (Value.vmap [(['a'], .vint 1),
      (['b'], .vseq [.vint 1, .vint 2, .vint 3])]) = true ∧
    ∃ out, (write_file true (Value.vmap [(['a'], .vint 1),
        (['b'], .vseq [.vint 1, .vint 2, .vint 3])]) yamlTag).1 = .ok out ∧
      (load_file (fun _ => .readable out) ['q'] yamlTag).1
        = .ok (Value.vmap [(['a'], .vint 1),
            (['b'], .vseq [.vint 1, .vint 2, .vint 3])]) :=
  ⟨rfl, round_trip_all_formats jsonTag yamlTag (by decide) (by decide)
    (fun _ => .readable (jsonDumpDoc (Value.vmap [(['a'], .vint 1),
      (['b'], .vseq [.vint 1, .vint 2, .vint 3])]))) ['p'] ['q'] _ rfl rfl⟩

theorem handle_write_logs (warn ls0 : List Log)
    (w : Except PyErr (List Char) × List Log) :
    ∃ rest, (handle_write warn ls0 w).logs = warn ++ rest := by
  rcases w with ⟨res, ls⟩
  cases res with
  | ok s => exact ⟨ls0 ++ ls ++ [(.info, .successMsg)], by simp [handle_write]⟩
  | error e =>
    cases e with
    | valueError m => exact ⟨ls0 ++ ls, by simp [handle_write]⟩
    | fileNotFound => exact ⟨ls0 ++ ls, by simp [handle_write]⟩
    | permissionError =>
      exact ⟨ls0 ++ ls ++ [(.errorL, .unexpectedMsg)], by simp [handle_write]⟩
    | otherError =>
      exact ⟨ls0 ++ ls ++ [(.errorL, .unexpectedMsg)], by simp [handle_write]⟩

theorem main_logs_warn_head (args : Args) (env : Env) :
    ∃ rest, (main args env).logs = warnLogs args ++ rest := by
  rcases hload : load_file env.fs args.input_file args.input_format with ⟨res, ls0⟩
  cases res with
  | ok v =>
    rw [main_load_ok hload]
    exact handle_write_logs _ _ _
  | error e =>
    cases e with
    | fileNotFound => rw [main_load_notFound hload]; exact ⟨ls0, rfl⟩
    | permissionError =>
      rw [main_load_perm hload]
      exact ⟨ls0 ++ [(.errorL, .unexpectedMsg)], by simp⟩
    | valueError m => rw [main_load_valueError hload]; exact ⟨ls0, rfl⟩
    | otherError =>
      rw [main_load_other hload]
      exact ⟨ls0 ++ [(.errorL, .unexpectedMsg)], by simp⟩

/-- C5: when the input and output format tags are equal (and valid), the
run surfaces the non-fatal same-format WARNING advisory in every case,
and still proceeds: whenever the input parses and the output is writable,
the run exits 0 and the written output re-loads to exactly the loaded
value (semantic equality with the input). -/
theorem same_format_advisory (args : Args) (env : Env)
    (heq : args.input_format = args.output_format)
    (hvf : validFormat args.input_format) :
    (.warning, .sameFormatMsg) ∈ (main args env).logs ∧
    (∀ v, (load_file env.fs args.input_file args.input_format).1 = .ok v →
      env.outWritable = true →
      (main args env).exitCode = 0 ∧
      ∃ out, (main args env).written = some out ∧
        (load_file (fun _ => .readable out) args.output_file args.input_format).1
          = .ok v) := by
  constructor
  · obtain ⟨rest, hrest⟩ := main_logs_warn_head args env
    rw [hrest]
    unfold warnLogs
    rw [if_pos heq]
    exact List.mem_append.mpr (Or.inl (List.mem_singleton.mpr rfl))
  · intro v hv hw
    rcases hload : load_file env.fs args.input_file args.input_format with ⟨res, ls0⟩
    rw [hload] at hv
    cases res with
    | error e => exact absurd hv (by simp)
    | ok w =>
      have hwv : w = v := by simpa using hv
      subst hwv
      obtain ⟨c, hfs, hpc⟩ := load_file_ok_readable hload
      have hout : args.output_format = args.input_format := heq.symm
      rcases validFormat_cases hvf with hf | hf | hf
      · rw [hf] at hpc
        have hy := parse_content_yaml_ok_inv hpc
        have hwr : write_file env.outWritable w args.output_format
            = (.ok (yamlDumpDoc w), []) := by
          rw [hw, hout, hf, write_file_yaml]
        have hmain := main_load_ok hload
        rw [hwr, handle_write_ok] at hmain
        refine ⟨by rw [hmain], yamlDumpDoc w, by rw [hmain], ?_⟩
        rw [hf, load_file_readable (fun _ => FileState.readable (yamlDumpDoc w))
          args.output_file _ yamlTag rfl, parse_content_yaml_ok (yaml_reload hy)]
      · rw [hf] at hpc
        have hy := parse_content_json_ok_inv hpc
        have hwr : write_file env.outWritable w args.output_format
            = (.ok (jsonDumpDoc w), []) := by
          rw [hw, hout, hf, write_file_json]
        have hmain := main_load_ok hload
        rw [hwr, handle_write_ok] at hmain
        refine ⟨by rw [hmain], jsonDumpDoc w, by rw [hmain], ?_⟩
        rw [hf, load_file_readable (fun _ => FileState.readable (jsonDumpDoc w))
          args.output_file _ jsonTag rfl, parse_content_json_ok (json_reload hy)]
      · rw [hf] at hpc
        have hy := parse_content_toml_ok_inv hpc
        obtain ⟨s, hd, hr⟩ := toml_reload hy
        have hwr : write_file env.outWritable w args.output_format = (.ok s, []) := by
          rw [hw, hout, hf, write_file_toml_ok hd]
        have hmain := main_load_ok hload
        rw [hwr, handle_write_ok] at hmain
        refine ⟨by rw [hmain], s, by rw [hmain], ?_⟩
        rw [hf, load_file_readable (fun _ => FileState.readable s)
          args.output_file _ tomlTag rfl, parse_content_toml_ok hr]

/-- Witness for C5: a yaml-to-yaml run on an empty input file warns and
succeeds. -/
theorem same_format_advisory_witness :
    (.warning, .sameFormatMsg) ∈ (main ⟨['i'], ['o'], yamlTag, yamlTag⟩
      ⟨fun _ => FileState.readable [], true⟩).logs ∧
    (main ⟨['i'], ['o'], yamlTag, yamlTag⟩
      ⟨fun _ => FileState.readable [], true⟩).exitCode = 0 :=
  ⟨(same_format_advisory ⟨['i'], ['o'], yamlTag, yamlTag⟩
      ⟨fun _ => FileState.readable [], true⟩ rfl (by decide)).1,
    ((same_format_advisory ⟨['i'], ['o'], yamlTag, yamlTag⟩
      ⟨fun _ => FileState.readable [], true⟩ rfl (by decide)).2 .vnull rfl rfl).1⟩

end ConfigConvert
